import Mathlib

/-!
Shallow embedding of the FSA validator and regex synthesizer
(src/fsa_to_regex.py and src/main.py; the two files share all core logic).

An automaton description, as produced by `read_file`, holds lists of strings
for states / alphabet / final states, an optional initial state, and a list
of `(from, symbol, to)` transition triples.
-/

structure Transition where
  src : String
  sym : String
  dst : String
deriving DecidableEq, Repr

structure FSA where
  states : List String
  alphabet : List String
  initialState : Option String
  finalStates : List String
  transitions : List Transition
deriving DecidableEq, Repr

/-- Python's substring containment test `needle in hay` on strings. -/
def strIn (needle hay : String) : Bool :=
  (List.range (hay.data.length + 1)).any
    (fun i => decide ((hay.data.drop i).take needle.data.length = needle.data))

/-- Lexicographic comparison of char lists by code point, Python's `<=` on strings. -/
def charsLe : List Char → List Char → Bool
  | [], _ => true
  | _ :: _, [] => false
  | a :: as, b :: bs =>
    if a.toNat < b.toNat then true
    else if b.toNat < a.toNat then false
    else charsLe as bs

/-- Python's string ordering `a <= b` (lexicographic by code point). -/
def strLe (a b : String) : Bool := charsLe a.data b.data

/-- Stable insertion of an element into a sorted list: the element goes in
front of the first entry it compares `le` to, hence after all earlier
equal-key entries. -/
def stableInsert (le : α → α → Bool) (a : α) : List α → List α
  | [] => [a]
  | b :: l => if le a b then a :: b :: l else b :: stableInsert le a l

/-- Stable sort (insertion sort), the embedding of Python's stable `list.sort`. -/
def stableSort (le : α → α → Bool) : List α → List α
  | [] => []
  | a :: l => stableInsert le a (stableSort le l)

/-! ## Graphs and breadth-first traversal

`is_disjoint` and `are_all_states_reachable` both build a dict mapping each
state to a list of neighbor states (initialised to `[]` for every state,
then extended per transition) and run the same BFS loop over it.  The dict
is embedded as an association list; `adjOf` is the dict read `graph[node]`
(a missing key, a `KeyError` in Python, is read as `[]`; both call sites
run after the endpoint checks, so the key is always present there). -/

abbrev Graph := List (String × List String)

def adjOf (g : Graph) (s : String) : List String := (g.lookup s).getD []

/-- The dict update `graph[k].append(v)`; a missing key `k` is a no-op
(Python would raise `KeyError`, which cannot happen at the call sites). -/
def addEdge (g : Graph) (k v : String) : Graph :=
  g.map (fun p => if p.1 = k then (p.1, p.2 ++ [v]) else p)

def initGraph (states : List String) : Graph := states.map (fun s => (s, []))

/-- The undirected adjacency built in `is_disjoint`: each transition
contributes an edge in both directions. -/
def undirected_graph (fsa : FSA) : Graph :=
  fsa.transitions.foldl (fun g t => addEdge (addEdge g t.src t.dst) t.dst t.src)
    (initGraph fsa.states)

/-- The directed adjacency built in `are_all_states_reachable`. -/
def directed_graph (fsa : FSA) : Graph :=
  fsa.transitions.foldl (fun g t => addEdge g t.src t.dst) (initGraph fsa.states)

/-- One iteration of the BFS `while` loop: pop the front node, mark it
visited, and enqueue its not-yet-visited neighbors (the visited set is
embedded as a duplicate-free list). On an empty queue this is the identity. -/
def bfsStep (g : Graph) : List String × List String → List String × List String
  | (visited, []) => (visited, [])
  | (visited, node :: rest) =>
    let visited' := if node ∈ visited then visited else node :: visited
    (visited', rest ++ (adjOf g node).filter (fun u => decide (u ∉ visited')))

/-- The BFS loop iterated `n` times (extra iterations beyond queue
exhaustion are the identity). -/
def bfsRun (g : Graph) : Nat → List String × List String → List String × List String
  | 0, s => s
  | n + 1, s => bfsRun g n (bfsStep g s)

/-! A termination measure for the BFS loop.  The loop can enqueue a node
several times before it is first popped, so neither the queue length nor
the unvisited count decreases alone; the measure below weights each queue
entry by how much future work popping it can create, and strictly drops at
every iteration (proved in `bfsMeasure_step_lt` below). -/

def bfsKeys (g : Graph) : List String := (g.map Prod.fst).dedup

def maxAdjLen (g : Graph) : Nat := (g.map (fun p => p.2.length)).foldr Nat.max 0

def wexp (a : Nat) : Nat → Nat
  | 0 => 1
  | m + 1 => 1 + a * wexp a m

def unvisitedCount (g : Graph) (visited : List String) : Nat :=
  ((bfsKeys g).filter (fun k => decide (k ∉ visited))).length

def nodeWeight (g : Graph) (visited : List String) (x : String) : Nat :=
  if x ∈ bfsKeys g then
    if x ∈ visited then 1 + maxAdjLen g * wexp (maxAdjLen g) (unvisitedCount g visited)
    else wexp (maxAdjLen g) (unvisitedCount g visited)
  else 1

def bfsMeasure (g : Graph) (s : List String × List String) : Nat :=
  (s.2.map (nodeWeight g s.1)).sum

/-- The set of nodes the BFS visits from `start`: run the loop for
`bfsMeasure` iterations, enough for the queue to empty (`bfsRun_measure_done`
below), exactly as the Python loop runs until its queue empties. -/
def bfsVisited (g : Graph) (start : String) : List String :=
  (bfsRun g (bfsMeasure g ([], [start])) ([], [start])).1

/-! ## Validator -/

def e1msg (s : String) : String := "E1: A state '" ++ s ++ "' is not in the set of states"

def e3msg (t : String) : String := "E3: A transition '" ++ t ++ "' is not represented in the alphabet"

def e2msg : String := "E2: Some states are disjoint"

def e4msg : String := "E4: Initial state is not defined"

/-- The `is_disjoint` check: BFS over the undirected adjacency from the
initial state, then compare the visited count with the state count.  An
undefined initial state is read as `""` (Python would raise on it; the only
caller checks E4 first). -/
def is_disjoint (fsa : FSA) : Bool :=
  let visited := bfsVisited (undirected_graph fsa) (fsa.initialState.getD "")
  decide (visited.length ≠ fsa.states.length)

/-- The transition loop of `find_error`: for the first offending transition,
E3 (symbol not in alphabet) is reported before the endpoint E1 checks. -/
def transError (alphabet states : List String) : List Transition → Option String
  | [] => none
  | t :: rest =>
    if t.sym ∉ alphabet then some (e3msg t.sym)
    else if t.src ∉ states then some (e1msg t.src)
    else if t.dst ∉ states then some (e1msg t.dst)
    else transError alphabet states rest

/-- The final-state loop of `find_error`. -/
def finalError (states : List String) : List String → Option String
  | [] => none
  | s :: rest => if s ∉ states then some (e1msg s) else finalError states rest

/-- The validator `find_error`: returns the first error found, `none` if the
description is well-formed. -/
def find_error (fsa : FSA) : Option String :=
  match fsa.initialState with
  | none => some e4msg
  | some init =>
    if init ∉ fsa.states then some (e1msg init)
    else
      match transError fsa.alphabet fsa.states fsa.transitions with
      | some e => some e
      | none =>
        match finalError fsa.states fsa.finalStates with
        | some e => some e
        | none => if is_disjoint fsa then some e2msg else none

/-- The completeness check `is_complete`: group transitions by source state
(only states with at least one outgoing transition become dict keys), and
report incomplete when some key covers fewer distinct symbols than the
alphabet size. -/
def is_complete (fsa : FSA) : Bool :=
  ((fsa.transitions.map (fun t => t.src)).dedup).all fun s =>
    decide (fsa.alphabet.length ≤
      (((fsa.transitions.filter (fun t => t.src == s)).map (fun t => t.sym)).dedup).length)

/-- The loop of `is_deterministic`: record each `(from, symbol)` key; a key
seen a second time means nondeterminism (the stored target is never read). -/
def isDetLoop (seen : List (String × String)) : List Transition → Bool
  | [] => true
  | t :: rest =>
    if (t.src, t.sym) ∈ seen then false else isDetLoop ((t.src, t.sym) :: seen) rest

def is_deterministic (fsa : FSA) : Bool := isDetLoop [] fsa.transitions

/-- The `are_all_states_reachable` check: BFS over the directed adjacency,
then compare the visited count with the state count. -/
def are_all_states_reachable (fsa : FSA) : Bool :=
  let visited := bfsVisited (directed_graph fsa) (fsa.initialState.getD "")
  decide (visited.length = fsa.states.length)

/-! ## Regex synthesizer -/

/-- The index-assignment loop of `get_states_dict` inside `get_regexp`.
The Python test `state in fsa[k_initial_state]` is a substring test on the
initial state's name (not an equality test); `i` counts up only for states
failing it.  The dict also stores the reverse integer-to-state entries,
which are never read and are omitted here.  An undefined initial state is
read as `""` (Python would raise; synthesis runs only after validation). -/
def statesDictLoop (init : String) : List String → Nat → List (String × Nat)
  | [], _ => []
  | s :: rest, i =>
    if strIn s init then (s, 0) :: statesDictLoop init rest i
    else (s, i) :: statesDictLoop init rest (i + 1)

def get_states_dict (fsa : FSA) : List (String × Nat) :=
  statesDictLoop (fsa.initialState.getD "") fsa.states 1

/-- The dict read `states[s]` on the index dict (missing key read as 0;
Python would raise `KeyError`, which cannot happen since every state of the
list is a key). -/
def statesDictAt (fsa : FSA) (s : String) : Nat :=
  ((get_states_dict fsa).lookup s).getD 0

/-- The canonical reordering `fsa[k_transitions].sort(key=lambda x: x[1])`:
stable sort by transition symbol. -/
def sortedTransitions (fsa : FSA) : List Transition :=
  stableSort (fun a b => strLe a.sym b.sym) fsa.transitions

/-- The indexed adjacency `graph[i] = list of (j, symbol)` built in
`get_regexp` from the sorted transitions (entries appear in sorted order). -/
def graphOf (fsa : FSA) : Nat → List (Nat × String) := fun i =>
  (sortedTransitions fsa).filterMap fun t =>
    if statesDictAt fsa t.src = i then some (statesDictAt fsa t.dst, t.sym) else none

/-- The recursive elimination `R(i, j, k)` with the bound shifted by one so
that the fuel argument `k + 1` is a natural number: `Raux g i j 0` is the
base case `k = -1`, and `Raux g i j (m + 1)` is the recursive case `k = m`. -/
def Raux (g : Nat → List (Nat × String)) : Nat → Nat → Nat → String
  | i, j, 0 =>
    let m := (g i).foldl
      (fun acc e => if e.1 ≠ j then acc
                    else if acc ≠ "" then acc ++ "|" ++ e.2 else acc ++ e.2) ""
    let m := if i = j then (if m ≠ "" then m ++ "|" else m) ++ "eps" else m
    if m = "" then "{}" else m
  | i, j, k + 1 =>
    "(" ++ Raux g i k k ++ ")(" ++ Raux g k k k ++ ")*(" ++ Raux g k j k
      ++ ")|(" ++ Raux g i j k ++ ")"

/-- The elimination expression `R(i, j, k)` for an integer bound `k ≥ -1`
(the only bounds the program ever passes; for `k ≤ -2` Python would not
terminate, and this embedding returns the base case). -/
def R (g : Nat → List (Nat × String)) (i j : Nat) (k : Int) : String :=
  Raux g i j (k + 1).toNat

/-- The positions of the final states in the original state list
(`fsa[k_states].index(state)`), sorted ascending.  A final state missing
from the state list is read as position `fsa.states.length` (Python would
raise `ValueError`; synthesis runs only after validation). -/
def final_states_indexes (fsa : FSA) : List Nat :=
  stableSort (fun a b => decide (a ≤ b))
    (fsa.finalStates.map (fun s => fsa.states.findIdx (fun x => x == s)))

/-- The accumulation `if acc != "": acc += "|"; acc += piece` used both in
the base case of `R` and in the final assembly of `get_regexp`. -/
def joinAlt (pieces : List String) : String :=
  pieces.foldl (fun acc s => if acc ≠ "" then acc ++ "|" ++ s else acc ++ s) ""

/-- The regex synthesizer `get_regexp`: sort transitions by symbol, index
the states, build the indexed adjacency, and join `R(0, i, n - 1)` over the
sorted final-state positions, with `{}` for an empty result. -/
def get_regexp (fsa : FSA) : String :=
  let n := fsa.states.length
  let g := graphOf fsa
  let regexp := joinAlt ((final_states_indexes fsa).map (fun i => R g 0 i ((n : Int) - 1)))
  if regexp = "" then "{}" else regexp

/-- The automaton value after `get_regexp` ran once: `get_regexp` sorts the
transition list in place before computing anything else, and mutates
nothing else. -/
def afterFirstRun (fsa : FSA) : FSA :=
  { fsa with transitions := stableSort (fun a b => strLe a.sym b.sym) fsa.transitions }

/-! ## Reachability predicates and the spec-side validator

`ReachG` is reachability in an adjacency mapping; `ReachUndirected` and
`ReachDirected` are reachability over the automaton's transitions read as
undirected respectively directed edges, the notions the specification's E2
and W2 conditions speak about. -/

inductive ReachG (g : Graph) (start : String) : String → Prop
  | refl : ReachG g start start
  | step {u v : String} : ReachG g start u → v ∈ adjOf g u → ReachG g start v

inductive ReachUndirected (fsa : FSA) (start : String) : String → Prop
  | refl : ReachUndirected fsa start start
  | step {u v : String} (t : Transition) : ReachUndirected fsa start u →
      t ∈ fsa.transitions → (t.src = u ∧ t.dst = v) ∨ (t.dst = u ∧ t.src = v) →
      ReachUndirected fsa start v

inductive ReachDirected (fsa : FSA) (start : String) : String → Prop
  | refl : ReachDirected fsa start start
  | step {u v : String} (t : Transition) : ReachDirected fsa start u →
      t ∈ fsa.transitions → t.src = u → t.dst = v → ReachDirected fsa start v

/-- Modelled from the spec: every state is reachable from the initial state
in the undirected graph (membership in the BFS result; `bfs_mem_iff_reachG`
below grounds it in `ReachUndirected`). -/
def reachesAllStates (fsa : FSA) : Bool :=
  fsa.states.all fun s =>
    decide (s ∈ bfsVisited (undirected_graph fsa) (fsa.initialState.getD ""))

/-- Modelled from the spec (section 4.2): the prioritized first-match rule
list E4, E1 (initial), per-transition E3-before-E1, E1 (final states), E2. -/
def findErrorSpec (fsa : FSA) : Option String :=
  match fsa.initialState with
  | none => some e4msg
  | some init =>
    if init ∉ fsa.states then some (e1msg init)
    else
      match fsa.transitions.find? (fun t =>
          decide (t.sym ∉ fsa.alphabet) || decide (t.src ∉ fsa.states)
            || decide (t.dst ∉ fsa.states)) with
      | some t =>
        if t.sym ∉ fsa.alphabet then some (e3msg t.sym)
        else if t.src ∉ fsa.states then some (e1msg t.src)
        else some (e1msg t.dst)
      | none =>
        match fsa.finalStates.find? (fun s => decide (s ∉ fsa.states)) with
        | some s => some (e1msg s)
        | none => if reachesAllStates fsa then none else some e2msg

/-- The symbols of the direct edges from index `i` to index `j` in the
indexed adjacency, in the order they carry there (symbol-sorted, since the
adjacency is built from the sorted transitions). -/
def edgeLabels (fsa : FSA) (i j : Nat) : List String :=
  ((graphOf fsa i).filter (fun e => decide (e.1 = j))).map (fun e => e.2)

/-! ## Concrete automata used by witnesses and counterexamples -/

/-- A valid deterministic automaton whose initial state `s2` is not first in
the state list: states `[s1, s2]`, alphabet `[a]`, final `[s1]`, transition
`s2>a>s1`. -/
def fsaShiftedInit : FSA := ⟨["s1", "s2"], ["a"], some "s2", ["s1"], [⟨"s2", "a", "s1"⟩]⟩

/-- An automaton whose state `a` is a proper substring of the initial state
`ab`. -/
def fsaSubstrInit : FSA := ⟨["a", "ab"], ["x"], some "ab", [], [⟨"a", "x", "ab"⟩]⟩

/-- An automaton with a non-empty alphabet whose state `b` has no outgoing
transition. -/
def fsaDeadState : FSA := ⟨["a", "b"], ["x"], some "a", [], [⟨"a", "x", "a"⟩]⟩

/-- The minimal automaton of the specification's testable properties:
`s1 -a-> s2` with `s2` final. -/
def fsaMinimal : FSA := ⟨["s1", "s2"], ["a"], some "s1", ["s2"], [⟨"s1", "a", "s2"⟩]⟩

/-- An automaton with an empty state list and a defined initial state. -/
def fsaEmptyStates : FSA := ⟨[], [], some "q", [], []⟩

/-- A nondeterministic automaton: two transitions share `(a, x)` with
different targets. -/
def fsaNondet : FSA :=
  ⟨["a", "b"], ["x"], some "a", [], [⟨"a", "x", "a"⟩, ⟨"a", "x", "b"⟩]⟩

/-! ## Sorting lemmas -/

theorem stableInsert_perm (le : α → α → Bool) (a : α) :
    ∀ l : List α, (stableInsert le a l).Perm (a :: l) := by
  intro l
  induction l with
  | nil => simp [stableInsert]
  | cons b l ih =>
    simp only [stableInsert]
    by_cases h : le a b
    · simp [h]
    · simp only [h, if_neg]
      exact ((ih.cons b).trans (List.Perm.swap a b l)).symm.symm

theorem stableSort_perm (le : α → α → Bool) :
    ∀ l : List α, (stableSort le l).Perm l := by
  intro l
  induction l with
  | nil => exact List.Perm.refl _
  | cons a l ih =>
    exact (stableInsert_perm le a (stableSort le l)).trans (ih.cons a)

theorem mem_stableInsert (le : α → α → Bool) (a : α) (l : List α) (x : α)
    (hx : x ∈ stableInsert le a l) : x = a ∨ x ∈ l :=
  List.mem_cons.1 ((stableInsert_perm le a l).mem_iff.1 hx)

theorem stableInsert_pairwise (le : α → α → Bool)
    (htot : ∀ a b, le a b = true ∨ le b a = true)
    (htrans : ∀ a b c, le a b = true → le b c = true → le a c = true)
    (a : α) (l : List α) (hl : l.Pairwise (fun x y => le x y = true)) :
    (stableInsert le a l).Pairwise (fun x y => le x y = true) := by
  induction l with
  | nil => simp [stableInsert]
  | cons b l ih =>
    rcases List.pairwise_cons.1 hl with ⟨hb, hl'⟩
    simp only [stableInsert]
    cases hab : le a b with
    | true =>
      simp only [if_pos rfl]
      refine List.pairwise_cons.2 ⟨?_, hl⟩
      intro y hy
      rcases List.mem_cons.1 hy with rfl | hy
      · exact hab
      · exact htrans a b y hab (hb y hy)
    | false =>
      rw [if_neg (by simp [hab])]
      refine List.pairwise_cons.2 ⟨?_, ih hl'⟩
      intro y hy
      rcases mem_stableInsert le a l y hy with rfl | hy
      · rcases htot y b with h | h
        · rw [hab] at h; exact absurd h (by simp)
        · exact h
      · exact hb y hy

theorem stableSort_pairwise (le : α → α → Bool)
    (htot : ∀ a b, le a b = true ∨ le b a = true)
    (htrans : ∀ a b c, le a b = true → le b c = true → le a c = true)
    (l : List α) : (stableSort le l).Pairwise (fun x y => le x y = true) := by
  induction l with
  | nil => simp [stableSort]
  | cons a l ih => exact stableInsert_pairwise le htot htrans a _ ih

theorem stableInsert_of_le (le : α → α → Bool) (a : α) (l : List α)
    (h : ∀ x ∈ l, le a x = true) :
    stableInsert le a l = a :: l := by
  cases l with
  | nil => rfl
  | cons b l => simp [stableInsert, h b (by simp)]

/-- A stable sort leaves an already sorted list unchanged. -/
theorem stableSort_of_pairwise (le : α → α → Bool)
    (l : List α) (hl : l.Pairwise (fun x y => le x y = true)) :
    stableSort le l = l := by
  induction l with
  | nil => rfl
  | cons a l ih =>
    rcases List.pairwise_cons.1 hl with ⟨ha, hl'⟩
    simp only [stableSort, ih hl']
    exact stableInsert_of_le le a l ha

theorem charsLe_total : ∀ as bs : List Char, charsLe as bs = true ∨ charsLe bs as = true := by
  intro as
  induction as with
  | nil => intro bs; left; rfl
  | cons a as ih =>
    intro bs
    cases bs with
    | nil => right; rfl
    | cons b bs =>
      simp only [charsLe]
      rcases Nat.lt_trichotomy a.toNat b.toNat with h | h | h
      · left; simp [h]
      · have h1 : ¬ a.toNat < b.toNat := by omega
        have h2 : ¬ b.toNat < a.toNat := by omega
        simp only [h1, h2, if_false, if_neg h1, if_neg h2]
        exact ih bs
      · right; simp [h]

theorem charsLe_trans : ∀ as bs cs : List Char,
    charsLe as bs = true → charsLe bs cs = true → charsLe as cs = true := by
  intro as
  induction as with
  | nil => intro bs cs _ _; rfl
  | cons a as ih =>
    intro bs cs hab hbc
    cases bs with
    | nil => simp [charsLe] at hab
    | cons b bs =>
      cases cs with
      | nil => simp [charsLe] at hbc
      | cons c cs =>
        simp only [charsLe] at hab hbc ⊢
        rcases Nat.lt_trichotomy a.toNat c.toNat with h | h | h
        · simp [h]
        · have h1 : ¬ a.toNat < c.toNat := by omega
          have h2 : ¬ c.toNat < a.toNat := by omega
          simp only [if_neg h1, if_neg h2]
          by_cases hab1 : a.toNat < b.toNat
          · by_cases hbc1 : b.toNat < c.toNat
            · omega
            · by_cases hbc2 : c.toNat < b.toNat
              · simp [if_neg (by omega : ¬ b.toNat < c.toNat), hbc2] at hbc
              · omega
          · by_cases hab2 : b.toNat < a.toNat
            · simp [if_neg hab1, hab2] at hab
            · have hba : b.toNat = a.toNat := by omega
              by_cases hbc1 : b.toNat < c.toNat
              · omega
              · by_cases hbc2 : c.toNat < b.toNat
                · simp [if_neg hbc1, hbc2] at hbc
                · simp only [if_neg hab1, if_neg hab2] at hab
                  simp only [if_neg hbc1, if_neg hbc2] at hbc
                  exact ih bs cs hab hbc
        · exfalso
          by_cases hab1 : a.toNat < b.toNat
          · by_cases hbc1 : b.toNat < c.toNat
            · omega
            · by_cases hbc2 : c.toNat < b.toNat
              · simp [if_neg (by omega : ¬ b.toNat < c.toNat), hbc2] at hbc
              · omega
          · by_cases hab2 : b.toNat < a.toNat
            · simp [if_neg hab1, hab2] at hab
            · by_cases hbc1 : b.toNat < c.toNat
              · omega
              · by_cases hbc2 : c.toNat < b.toNat
                · simp [if_neg hbc1, hbc2] at hbc
                · omega

theorem strLe_total : ∀ a b : String, strLe a b = true ∨ strLe b a = true :=
  fun a b => charsLe_total a.data b.data

theorem strLe_trans : ∀ a b c : String,
    strLe a b = true → strLe b c = true → strLe a c = true :=
  fun a b c => charsLe_trans a.data b.data c.data

/-! ## String helper lemmas -/

theorem str_eq_empty_iff (s : String) : s = "" ↔ s.data = [] := by
  constructor
  · rintro rfl; rfl
  · intro h; cases s; simp_all

theorem append_ne_empty_right (a b : String) (hb : b ≠ "") : a ++ b ≠ "" := by
  intro h
  apply hb
  rw [str_eq_empty_iff] at h ⊢
  rw [String.data_append] at h
  exact (List.append_eq_nil.1 h).2

theorem empty_append (s : String) : "" ++ s = s := by
  cases s; rfl

theorem string_append_empty (s : String) : s ++ "" = s := by
  cases s with
  | mk data => show String.mk (data ++ []) = String.mk data; simp

theorem bar_mem_append_ne_braces (a b : String) (h : '|' ∈ b.data) :
    a ++ b ≠ "{}" := by
  intro he
  have hd := congrArg String.data he
  rw [String.data_append] at hd
  have : '|' ∈ ("{}" : String).data := hd ▸ List.mem_append_right _ h
  simp at this

/-! ## Lemmas about the alternation accumulator `joinAlt` -/

theorem joinAltFold_ne_empty (l : List String) (hl : ∀ s ∈ l, s ≠ "") :
    ∀ acc : String, (acc ≠ "" ∨ l ≠ []) →
      l.foldl (fun acc s => if acc ≠ "" then acc ++ "|" ++ s else acc ++ s) acc ≠ "" := by
  induction l with
  | nil =>
    intro acc h
    rcases h with h | h
    · exact h
    · exact absurd rfl h
  | cons s rest ih =>
    intro acc _
    rw [List.foldl_cons]
    refine ih (fun x hx => hl x (List.mem_cons_of_mem _ hx)) _ (Or.inl ?_)
    have hs : s ≠ "" := hl s (List.mem_cons_self s rest)
    by_cases hacc : acc ≠ ""
    · rw [if_pos hacc]; exact append_ne_empty_right _ _ hs
    · rw [if_neg hacc]; exact append_ne_empty_right _ _ hs

theorem joinAlt_ne_empty (l : List String) (hl : ∀ s ∈ l, s ≠ "") (hne : l ≠ []) :
    joinAlt l ≠ "" :=
  joinAltFold_ne_empty l hl "" (Or.inr hne)

theorem joinAltFold_shape (l : List String) :
    ∀ acc : String, acc ≠ "" →
      ∃ t : String,
        l.foldl (fun acc s => if acc ≠ "" then acc ++ "|" ++ s else acc ++ s) acc = acc ++ t := by
  induction l with
  | nil => intro acc _; exact ⟨"", (string_append_empty acc).symm⟩
  | cons s rest ih =>
    intro acc hacc
    rw [List.foldl_cons, if_pos hacc]
    have hacc' : acc ++ "|" ++ s ≠ "" := by
      simp [str_eq_empty_iff, String.data_append]
    rcases ih (acc ++ "|" ++ s) hacc' with ⟨t, ht⟩
    exact ⟨"|" ++ (s ++ t), by rw [ht, String.append_assoc, String.append_assoc]⟩

theorem joinAlt_single (s : String) : joinAlt [s] = s := by
  show (if ("" : String) ≠ "" then "" ++ "|" ++ s else "" ++ s) = s
  rw [if_neg (by simp)]
  exact empty_append s

theorem joinAlt_cons_cons (s r : String) (rest : List String) (hs : s ≠ "") :
    ∃ t : String, joinAlt (s :: r :: rest) = s ++ "|" ++ (r ++ t) := by
  have h0 : (if ("" : String) ≠ "" then "" ++ "|" ++ s else "" ++ s) = s := by
    rw [if_neg (by simp)]; exact empty_append s
  have h1 : joinAlt (s :: r :: rest) =
      rest.foldl (fun acc x => if acc ≠ "" then acc ++ "|" ++ x else acc ++ x)
        (s ++ "|" ++ r) := by
    simp only [joinAlt, List.foldl_cons]
    rw [h0, if_pos hs]
  have hacc : s ++ "|" ++ r ≠ "" := by
    simp [str_eq_empty_iff, String.data_append]
  rcases joinAltFold_shape rest (s ++ "|" ++ r) hacc with ⟨t, ht⟩
  refine ⟨t, ?_⟩
  rw [h1, ht]
  exact String.append_assoc _ _ _

theorem joinAlt_ne_braces (l : List String) (hl : ∀ s ∈ l, s ≠ "" ∧ s ≠ "{}")
    (hne : l ≠ []) : joinAlt l ≠ "{}" := by
  cases l with
  | nil => exact absurd rfl hne
  | cons s rest =>
    cases rest with
    | nil => rw [joinAlt_single]; exact (hl s (by simp)).2
    | cons r rest' =>
      rcases joinAlt_cons_cons s r rest' (hl s (by simp)).1 with ⟨t, ht⟩
      rw [ht]
      have : '|' ∈ ("|" ++ (r ++ t)).data := by
        rw [String.data_append]
        exact List.mem_append_left _ (by simp [show ("|" : String).data = ['|'] from rfl])
      rw [show s ++ "|" ++ (r ++ t) = s ++ ("|" ++ (r ++ t)) from String.append_assoc ..]
      exact bar_mem_append_ne_braces _ _ this

/-! ## The elimination recurrence -/

/-- C6: for every `k ≥ 0` the elimination satisfies
`R(i,j,k) = (R(i,k,k-1))(R(k,k,k-1))*(R(k,j,k-1))|(R(i,j,k-1))`, every
sub-expression parenthesized unconditionally and no `eps` or `\x7b\x7d` term
simplified away. -/
theorem R_recursive_decomposition (g : Nat → List (Nat × String)) (i j : Nat) (k : Int)
    (hk : 0 ≤ k) :
    R g i j k =
      "(" ++ R g i k.toNat (k - 1) ++ ")(" ++ R g k.toNat k.toNat (k - 1) ++ ")*("
        ++ R g k.toNat j (k - 1) ++ ")|(" ++ R g i j (k - 1) ++ ")" := by
  unfold R
  have h1 : (k + 1).toNat = k.toNat + 1 := by omega
  have h2 : (k - 1 + 1).toNat = k.toNat := by omega
  rw [h1, h2]
  rfl

/-- Witness for `R_recursive_decomposition` at the adjacency of the minimal
automaton and `k = 1`. -/
theorem R_recursive_decomposition_witness :
    (0 : Int) ≤ 1 ∧
      R (graphOf fsaMinimal) 0 1 1 =
        "(" ++ R (graphOf fsaMinimal) 0 1 0 ++ ")(" ++ R (graphOf fsaMinimal) 1 1 0 ++ ")*("
          ++ R (graphOf fsaMinimal) 1 1 0 ++ ")|(" ++ R (graphOf fsaMinimal) 0 1 0 ++ ")" :=
  ⟨by decide, by
    have h := R_recursive_decomposition (graphOf fsaMinimal) 0 1 1 (by decide)
    exact h⟩

theorem foldl_skip (j : Nat) (edges : List (Nat × String)) :
    ∀ acc : String,
      edges.foldl (fun acc e => if e.1 ≠ j then acc
          else if acc ≠ "" then acc ++ "|" ++ e.2 else acc ++ e.2) acc
        = ((edges.filter (fun e => decide (e.1 = j))).map (fun e => e.2)).foldl
            (fun acc s => if acc ≠ "" then acc ++ "|" ++ s else acc ++ s) acc := by
  induction edges with
  | nil => intro acc; rfl
  | cons e rest ih =>
    intro acc
    by_cases he : e.1 = j
    · simp only [List.foldl_cons, List.filter_cons, decide_eq_true_eq, if_pos he,
        if_neg (not_not_intro he), List.map_cons]
      exact ih _
    · simp only [List.foldl_cons, List.filter_cons, decide_eq_true_eq, if_neg he, if_pos he]
      exact ih _

/-- The base case of `Raux` written with `joinAlt` over the matching edge
labels. -/
theorem Raux_base (g : Nat → List (Nat × String)) (i j : Nat) :
    Raux g i j 0 =
      (let m := joinAlt (((g i).filter (fun e => decide (e.1 = j))).map (fun e => e.2))
       let m2 := if i = j then (if m ≠ "" then m ++ "|" else m) ++ "eps" else m
       if m2 = "" then "{}" else m2) := by
  simp only [Raux, joinAlt]
  rw [foldl_skip]

theorem pairwise_filterMap {α β : Type} (f : α → Option β) {S : α → α → Prop}
    {Rb : β → β → Prop}
    (h : ∀ a b x y, S a b → f a = some x → f b = some y → Rb x y) :
    ∀ l : List α, l.Pairwise S → (l.filterMap f).Pairwise Rb := by
  intro l
  induction l with
  | nil => intro _; simp
  | cons a l ih =>
    intro hl
    rcases List.pairwise_cons.1 hl with ⟨ha, hl'⟩
    rw [List.filterMap_cons]
    cases hfa : f a with
    | none => exact ih hl'
    | some x =>
      refine List.pairwise_cons.2 ⟨?_, ih hl'⟩
      intro y hy
      rcases List.mem_filterMap.1 hy with ⟨b, hb, hfb⟩
      exact h a b x y (ha b hb) hfa hfb

theorem sortedTransitions_pairwise (fsa : FSA) :
    (sortedTransitions fsa).Pairwise (fun a b => strLe a.sym b.sym = true) :=
  stableSort_pairwise _ (fun a b => strLe_total a.sym b.sym)
    (fun a b c => strLe_trans a.sym b.sym c.sym) fsa.transitions

theorem edgeLabels_pairwise (fsa : FSA) (i j : Nat) :
    (edgeLabels fsa i j).Pairwise (fun a b => strLe a b = true) := by
  unfold edgeLabels graphOf
  rw [List.pairwise_map]
  refine List.Pairwise.filter _ ?_
  refine pairwise_filterMap _ ?_ _ (sortedTransitions_pairwise fsa)
  intro a b x y hab hfa hfb
  by_cases ha : statesDictAt fsa a.src = i
  · rw [if_pos ha] at hfa
    cases hfa
    by_cases hb : statesDictAt fsa b.src = i
    · rw [if_pos hb] at hfb; cases hfb; exact hab
    · rw [if_neg hb] at hfb; cases hfb
  · rw [if_neg ha] at hfa; cases hfa

theorem edgeLabels_mem (fsa : FSA) (i j : Nat) (y : String)
    (hy : y ∈ edgeLabels fsa i j) : ∃ t ∈ fsa.transitions, t.sym = y := by
  unfold edgeLabels at hy
  rcases List.mem_map.1 hy with ⟨e, he, rfl⟩
  have he' := List.mem_of_mem_filter he
  unfold graphOf at he'
  rcases List.mem_filterMap.1 he' with ⟨t, ht, hft⟩
  refine ⟨t, (stableSort_perm _ fsa.transitions).mem_iff.1 ht, ?_⟩
  by_cases h : statesDictAt fsa t.src = i
  · rw [if_pos h] at hft; cases hft; rfl
  · rw [if_neg h] at hft; cases hft

/-- C5: the base case `R(i, j, -1)` is the symbol-sorted direct-edge labels
joined with alternation bars, with `eps` appended as one more operand
exactly when `i = j`, and it is the empty-language literal exactly when
there is no direct edge and `i ≠ j`.  (The hypothesis rules out transition
symbols that collide with the empty string or the empty-language literal;
the loader's grammar only produces non-empty alphanumeric symbols.) -/
theorem R_base_case (fsa : FSA) (i j : Nat)
    (hsym : ∀ t ∈ fsa.transitions, t.sym ≠ "" ∧ t.sym ≠ "{}") :
    (R (graphOf fsa) i j (-1) =
      (if i = j then
        (if edgeLabels fsa i j = [] then "eps" else joinAlt (edgeLabels fsa i j) ++ "|eps")
       else if edgeLabels fsa i j = [] then "{}" else joinAlt (edgeLabels fsa i j)))
    ∧ (edgeLabels fsa i j).Pairwise (fun a b => strLe a b = true)
    ∧ (R (graphOf fsa) i j (-1) = "{}" ↔ edgeLabels fsa i j = [] ∧ i ≠ j) := by
  have hlab : ∀ s ∈ edgeLabels fsa i j, s ≠ "" ∧ s ≠ "{}" := by
    intro s hs
    rcases edgeLabels_mem fsa i j s hs with ⟨t, ht, rfl⟩
    exact hsym t ht
  have hR : R (graphOf fsa) i j (-1) = Raux (graphOf fsa) i j 0 := rfl
  have hbase := Raux_base (graphOf fsa) i j
  have hlabels :
      ((graphOf fsa i).filter (fun e => decide (e.1 = j))).map (fun e => e.2)
        = edgeLabels fsa i j := rfl
  rw [hlabels] at hbase
  simp only at hbase
  by_cases hnil : edgeLabels fsa i j = []
  · rw [hnil] at hbase
    by_cases hij : i = j
    · rw [if_pos hij] at hbase
      have hval : Raux (graphOf fsa) i j 0 = "eps" := by rw [hbase]; decide
      refine ⟨?_, edgeLabels_pairwise fsa i j, ?_⟩
      · rw [hR, hval, if_pos hij, if_pos hnil]
      · rw [hR, hval]
        exact ⟨fun h => absurd h (by decide), fun h => absurd hij h.2⟩
    · rw [if_neg hij] at hbase
      have hval : Raux (graphOf fsa) i j 0 = "{}" := by rw [hbase]; decide
      refine ⟨?_, edgeLabels_pairwise fsa i j, ?_⟩
      · rw [hR, hval, if_neg hij, if_pos hnil]
      · rw [hR, hval]
        exact ⟨fun _ => ⟨hnil, hij⟩, fun _ => rfl⟩
  · have hm : joinAlt (edgeLabels fsa i j) ≠ "" :=
      joinAlt_ne_empty _ (fun s hs => (hlab s hs).1) hnil
    have hbr : joinAlt (edgeLabels fsa i j) ≠ "{}" :=
      joinAlt_ne_braces _ hlab hnil
    have hbareps : ("|" ++ "eps" : String) = "|eps" := by decide
    by_cases hij : i = j
    · rw [if_pos hij, if_pos hm, String.append_assoc, hbareps] at hbase
      have hne : joinAlt (edgeLabels fsa i j) ++ "|eps" ≠ "" :=
        append_ne_empty_right _ _ (by decide)
      rw [if_neg hne] at hbase
      have hnbr : joinAlt (edgeLabels fsa i j) ++ "|eps" ≠ "{}" :=
        bar_mem_append_ne_braces _ _ (by decide)
      refine ⟨?_, edgeLabels_pairwise fsa i j, ?_⟩
      · rw [hR, hbase, if_pos hij, if_neg hnil]
      · rw [hR, hbase]
        exact ⟨fun h => absurd h hnbr, fun ⟨h, _⟩ => absurd h hnil⟩
    · rw [if_neg hij, if_neg hm] at hbase
      refine ⟨?_, edgeLabels_pairwise fsa i j, ?_⟩
      · rw [hR, hbase, if_neg hij, if_neg hnil]
      · rw [hR, hbase]
        exact ⟨fun h => absurd h hbr, fun ⟨h, _⟩ => absurd h hnil⟩

/-- Witness for `R_base_case` at the shifted-initial automaton, `i = 0`,
`j = 1`. -/
theorem R_base_case_witness :
    (∀ t ∈ fsaShiftedInit.transitions, t.sym ≠ "" ∧ t.sym ≠ "{}") ∧
    ((R (graphOf fsaShiftedInit) 0 1 (-1) =
      (if 0 = 1 then
        (if edgeLabels fsaShiftedInit 0 1 = [] then "eps"
         else joinAlt (edgeLabels fsaShiftedInit 0 1) ++ "|eps")
       else if edgeLabels fsaShiftedInit 0 1 = [] then "{}"
       else joinAlt (edgeLabels fsaShiftedInit 0 1)))
    ∧ (edgeLabels fsaShiftedInit 0 1).Pairwise (fun a b => strLe a b = true)
    ∧ (R (graphOf fsaShiftedInit) 0 1 (-1) = "{}" ↔
        edgeLabels fsaShiftedInit 0 1 = [] ∧ 0 ≠ 1)) :=
  ⟨by decide, R_base_case fsaShiftedInit 0 1 (by decide)⟩

/-! ## Idempotence of synthesis -/

/-- C8: running `get_regexp` on the automaton value left behind by a first
run (its transition list already canonically sorted in place) produces the
same output string as the first run. -/
theorem get_regexp_idempotent (fsa : FSA) :
    get_regexp (afterFirstRun fsa) = get_regexp fsa := by
  have hsort : sortedTransitions (afterFirstRun fsa) = sortedTransitions fsa := by
    show stableSort _ (stableSort _ fsa.transitions) = stableSort _ fsa.transitions
    exact stableSort_of_pairwise _ _
      (stableSort_pairwise _ (fun a b => strLe_total a.sym b.sym)
        (fun a b c => strLe_trans a.sym b.sym c.sym) fsa.transitions)
  have hg : graphOf (afterFirstRun fsa) = graphOf fsa := by
    funext i
    show (sortedTransitions (afterFirstRun fsa)).filterMap _ = _
    rw [hsort]
    rfl
  simp only [get_regexp]
  rw [hg]
  rfl

/-! ## Validation of an automaton with no states -/

/-- C9: with an empty state list, validation reports E4 when the initial
state is undefined and E1 otherwise, never success. -/
theorem find_error_empty_states (fsa : FSA) (h : fsa.states = []) :
    find_error fsa ≠ none ∧
      ((fsa.initialState = none ∧ find_error fsa = some e4msg) ∨
        (∃ q, fsa.initialState = some q ∧ find_error fsa = some (e1msg q))) := by
  cases hi : fsa.initialState with
  | none =>
    have hfe : find_error fsa = some e4msg := by unfold find_error; rw [hi]
    rw [hfe]
    exact ⟨by simp, Or.inl ⟨rfl, rfl⟩⟩
  | some q =>
    have hq : q ∉ fsa.states := by rw [h]; simp
    have hfe : find_error fsa = some (e1msg q) := by
      unfold find_error
      rw [hi]
      exact if_pos hq
    rw [hfe]
    exact ⟨by simp, Or.inr ⟨q, rfl, rfl⟩⟩

/-- Witness for `find_error_empty_states` at a concrete empty-state
automaton. -/
theorem find_error_empty_states_witness :
    fsaEmptyStates.states = [] ∧
      (find_error fsaEmptyStates ≠ none ∧
        ((fsaEmptyStates.initialState = none ∧ find_error fsaEmptyStates = some e4msg) ∨
          (∃ q, fsaEmptyStates.initialState = some q ∧
            find_error fsaEmptyStates = some (e1msg q)))) :=
  ⟨rfl, find_error_empty_states fsaEmptyStates rfl⟩

/-! ## Divergences of the synthesizer and the completeness check -/

/-- C2 failing input: in `get_states_dict`, the substring test
`state in fsa[k_initial_state]` maps state `a` to index 0 as well when the
initial state is `ab`, instead of giving `a` its rank 1. -/
theorem get_states_dict_substring_collision :
    statesDictAt fsaSubstrInit "a" = 0 ∧ statesDictAt fsaSubstrInit "ab" = 0 ∧
      fsaSubstrInit.initialState = some "ab" ∧ "a" ∈ fsaSubstrInit.states ∧
      ("a" : String) ≠ "ab" := by decide

/-- C4 failing input: `is_complete` only iterates states with at least one
outgoing transition, so the dead state `b` never makes it incomplete even
though the alphabet is non-empty. -/
theorem is_complete_ignores_dead_state :
    is_complete fsaDeadState = true ∧ "b" ∈ fsaDeadState.states ∧
      fsaDeadState.alphabet ≠ [] ∧
      fsaDeadState.transitions.filter (fun t => t.src == "b") = [] := by decide

/-- C1 failing input: on the shifted-initial automaton (valid and
deterministic, final state `s1` has assigned index 1 but list position 0),
`get_regexp` assembles `R(0, 0, n-1)` — the expression for paths back to
the initial state — instead of the claimed `R(0, 1, n-1)`. -/
theorem get_regexp_uses_list_position :
    find_error fsaShiftedInit = none ∧ is_deterministic fsaShiftedInit = true ∧
      fsaShiftedInit.finalStates = ["s1"] ∧ statesDictAt fsaShiftedInit "s1" = 1 ∧
      get_regexp fsaShiftedInit = R (graphOf fsaShiftedInit) 0 0 1 ∧
      get_regexp fsaShiftedInit ≠ R (graphOf fsaShiftedInit) 0 1 1 := by decide

/-! ## Determinism check -/

theorem isDetLoop_iff (ts : List Transition) :
    ∀ seen : List (String × String),
      (isDetLoop seen ts = true ↔
        (ts.map fun t => (t.src, t.sym)).Nodup ∧
          ∀ k ∈ ts.map fun t => (t.src, t.sym), k ∉ seen) := by
  induction ts with
  | nil => intro seen; simp [isDetLoop]
  | cons t rest ih =>
    intro seen
    by_cases hk : (t.src, t.sym) ∈ seen
    · simp only [isDetLoop, if_pos hk]
      constructor
      · intro h; cases h
      · rintro ⟨_, hall⟩
        exact absurd hk (hall _ (by simp))
    · simp only [isDetLoop, if_neg hk]
      rw [ih]
      simp only [List.map_cons, List.nodup_cons, List.mem_cons]
      constructor
      · rintro ⟨hnd, hall⟩
        refine ⟨⟨fun hmem => (hall _ hmem) (Or.inl rfl), hnd⟩, ?_⟩
        rintro k (rfl | hk')
        · exact hk
        · exact fun hks => (hall k hk') (Or.inr hks)
      · rintro ⟨⟨hkm, hnd⟩, hall⟩
        refine ⟨hnd, fun k hk' => ?_⟩
        rintro (rfl | hks)
        · exact hkm hk'
        · exact hall k (Or.inr hk') hks

theorem is_deterministic_true_iff (ts : List Transition) :
    isDetLoop [] ts = true ↔ (ts.map fun t => (t.src, t.sym)).Nodup := by
  rw [isDetLoop_iff]
  simp

/-- C7: with set-semantics transitions (no duplicate triples, as the loader
guarantees), `is_deterministic` returns false exactly when two distinct
transitions share `(from, symbol)` with different targets, and the answer
is invariant under permuting the transition list. -/
theorem is_deterministic_characterization (fsa : FSA)
    (hN : fsa.transitions.Nodup) :
    (is_deterministic fsa = false ↔
      ∃ t1 ∈ fsa.transitions, ∃ t2 ∈ fsa.transitions,
        t1 ≠ t2 ∧ t1.src = t2.src ∧ t1.sym = t2.sym ∧ t1.dst ≠ t2.dst)
    ∧ ∀ ts' : List Transition, ts'.Perm fsa.transitions →
        is_deterministic { fsa with transitions := ts' } = is_deterministic fsa := by
  constructor
  · have hfalse : is_deterministic fsa = false ↔
        ¬ (fsa.transitions.map fun t => (t.src, t.sym)).Nodup := by
      rw [← is_deterministic_true_iff fsa.transitions]
      constructor
      · intro h h'
        have hh : is_deterministic fsa = true := h'
        rw [h] at hh
        cases hh
      · intro h
        cases hb : is_deterministic fsa with
        | false => rfl
        | true => exact absurd hb h
    rw [hfalse, List.nodup_map_iff_inj_on hN]
    push_neg
    constructor
    · rintro ⟨t1, h1, t2, h2, hkey, hne⟩
      have hsrc : t1.src = t2.src := congrArg Prod.fst hkey
      have hsym : t1.sym = t2.sym := congrArg Prod.snd hkey
      refine ⟨t1, h1, t2, h2, hne, hsrc, hsym, fun hdst => hne ?_⟩
      cases t1; cases t2
      simp only at hsrc hsym hdst
      simp [hsrc, hsym, hdst]
    · rintro ⟨t1, h1, t2, h2, hne, hsrc, hsym, _⟩
      exact ⟨t1, h1, t2, h2, Prod.ext hsrc hsym, hne⟩
  · intro ts' hperm
    have h1 : is_deterministic { fsa with transitions := ts' } = isDetLoop [] ts' := rfl
    have h2 : is_deterministic fsa = isDetLoop [] fsa.transitions := rfl
    rw [h1, h2]
    have hiff : isDetLoop [] ts' = true ↔ isDetLoop [] fsa.transitions = true := by
      rw [is_deterministic_true_iff, is_deterministic_true_iff]
      exact (hperm.map fun t => (t.src, t.sym)).nodup_iff
    cases hb : isDetLoop [] ts' with
    | true => exact (hiff.1 hb).symm
    | false =>
      cases hb' : isDetLoop [] fsa.transitions with
      | true => exact absurd (hiff.2 hb') (by rw [hb]; exact fun h => by cases h)
      | false => rfl

/-- Witness for `is_deterministic_characterization` at a concrete
nondeterministic automaton. -/
theorem is_deterministic_characterization_witness :
    fsaNondet.transitions.Nodup ∧
      ((is_deterministic fsaNondet = false ↔
        ∃ t1 ∈ fsaNondet.transitions, ∃ t2 ∈ fsaNondet.transitions,
          t1 ≠ t2 ∧ t1.src = t2.src ∧ t1.sym = t2.sym ∧ t1.dst ≠ t2.dst)
      ∧ ∀ ts' : List Transition, ts'.Perm fsaNondet.transitions →
          is_deterministic { fsaNondet with transitions := ts' }
            = is_deterministic fsaNondet) :=
  ⟨by decide, is_deterministic_characterization fsaNondet (by decide)⟩

/-! ## Termination of the BFS loop: measure lemmas -/

theorem wexp_pos (a m : Nat) : 1 ≤ wexp a m := by
  cases m with
  | zero => exact Nat.le_refl 1
  | succ m => exact Nat.le_add_right 1 _

theorem wexp_zero (m : Nat) : wexp 0 m = 1 := by
  induction m with
  | zero => rfl
  | succ m ih => simp [wexp, ih]

theorem wexp_le_succ (a m : Nat) : wexp a m ≤ wexp a (m + 1) := by
  cases a with
  | zero => rw [wexp_zero, wexp_zero]
  | succ b =>
    show wexp (b + 1) m ≤ 1 + (b + 1) * wexp (b + 1) m
    have h1 : wexp (b + 1) m ≤ (b + 1) * wexp (b + 1) m :=
      Nat.le_mul_of_pos_left _ (Nat.succ_pos b)
    omega

theorem filter_notmem_cons_length (V : List String) (x : String) (hxV : x ∉ V) :
    ∀ l : List String, l.Nodup → x ∈ l →
      (l.filter (fun k => decide (k ∉ x :: V))).length + 1
        = (l.filter (fun k => decide (k ∉ V))).length := by
  intro l
  induction l with
  | nil => intro _ hx; cases hx
  | cons y t ih =>
    intro hN hx
    rcases List.nodup_cons.1 hN with ⟨hyt, htN⟩
    rw [List.filter_cons, List.filter_cons]
    rcases List.mem_cons.1 hx with hxy | hxt
    · subst hxy
      have hcong : t.filter (fun k => decide (k ∉ x :: V))
          = t.filter (fun k => decide (k ∉ V)) :=
        List.filter_congr (fun k hk => by
          have hne : k ≠ x := fun he => hyt (he ▸ hk)
          simp [hne])
      rw [hcong]
      have c1 : decide (x ∉ x :: V) = false := by simp
      have c2 : decide (x ∉ V) = true := by simpa using hxV
      rw [c1, c2]
      simp
    · have hyx : y ≠ x := fun he => hyt (he ▸ hxt)
      have hcond : decide (y ∉ x :: V) = decide (y ∉ V) := by simp [hyx]
      rw [hcond]
      have hih := ih htN hxt
      cases hv : decide (y ∉ V) with
      | true => rw [if_pos rfl, if_pos rfl]; simp only [List.length_cons]; omega
      | false => simp only [if_neg (by simp : ¬ (false = true))]; omega

theorem unvisitedCount_cons_mem (g : Graph) (V : List String) (x : String)
    (hx : x ∈ bfsKeys g) (hxV : x ∉ V) :
    unvisitedCount g (x :: V) + 1 = unvisitedCount g V :=
  filter_notmem_cons_length V x hxV (bfsKeys g) (List.nodup_dedup _) hx

theorem unvisitedCount_cons_not_mem (g : Graph) (V : List String) (x : String)
    (hx : x ∉ bfsKeys g) :
    unvisitedCount g (x :: V) = unvisitedCount g V := by
  unfold unvisitedCount
  congr 1
  apply List.filter_congr
  intro k hk
  have hkx : k ≠ x := fun he => hx (he ▸ hk)
  simp [hkx]

theorem lookup_eq_none_of_not_mem_keys (g : Graph) (x : String)
    (hx : x ∉ g.map Prod.fst) : g.lookup x = none := by
  induction g with
  | nil => rfl
  | cons p g ih =>
    have hxp : x ≠ p.1 := by
      intro he
      exact hx (by simp [he])
    have : (x == p.1) = false := beq_eq_false_iff_ne.2 hxp
    cases p with
    | mk k v =>
      simp only [List.lookup, this]
      exact ih (fun hm => hx (by simp at hm ⊢; exact Or.inr hm))

theorem adjOf_eq_nil_of_not_mem (g : Graph) (x : String) (hx : x ∉ bfsKeys g) :
    adjOf g x = [] := by
  unfold adjOf
  rw [lookup_eq_none_of_not_mem_keys g x (fun hm => hx (List.mem_dedup.2 hm))]
  rfl

theorem adjOf_length_le (g : Graph) (x : String) :
    (adjOf g x).length ≤ maxAdjLen g := by
  induction g with
  | nil => exact Nat.zero_le _
  | cons p g ih =>
    cases p with
    | mk k v =>
      show ((((k, v) :: g).lookup x).getD []).length ≤ _
      by_cases hxk : x = k
      · simp only [List.lookup, hxk, beq_self_eq_true, Option.getD_some]
        exact Nat.le_max_left _ _
      · have hbeq : (x == k) = false := beq_eq_false_iff_ne.2 hxk
        simp only [List.lookup, hbeq]
        exact Nat.le_trans ih (Nat.le_max_right _ _)

theorem nodeWeight_pos (g : Graph) (V : List String) (x : String) :
    1 ≤ nodeWeight g V x := by
  unfold nodeWeight
  by_cases h1 : x ∈ bfsKeys g
  · rw [if_pos h1]
    by_cases h2 : x ∈ V
    · rw [if_pos h2]; omega
    · rw [if_neg h2]; exact wexp_pos _ _
  · rw [if_neg h1]

theorem nodeWeight_le_wexp (g : Graph) (V : List String) (x : String) (hx : x ∉ V) :
    nodeWeight g V x ≤ wexp (maxAdjLen g) (unvisitedCount g V) := by
  unfold nodeWeight
  by_cases h1 : x ∈ bfsKeys g
  · rw [if_pos h1, if_neg hx]
  · rw [if_neg h1]; exact wexp_pos _ _

theorem nodeWeight_mono (g : Graph) (V : List String) (x : String) (hxV : x ∉ V) :
    ∀ y, nodeWeight g (x :: V) y ≤ nodeWeight g V y := by
  intro y
  by_cases hxk : x ∈ bfsKeys g
  · have hm := unvisitedCount_cons_mem g V x hxk hxV
    unfold nodeWeight
    by_cases hyk : y ∈ bfsKeys g
    · rw [if_pos hyk, if_pos hyk]
      by_cases hyV : y ∈ V
      · rw [if_pos hyV, if_pos (List.mem_cons_of_mem x hyV)]
        have hle := wexp_le_succ (maxAdjLen g) (unvisitedCount g (x :: V))
        rw [hm] at hle
        exact Nat.add_le_add_left (Nat.mul_le_mul_left _ hle) 1
      · by_cases hyx : y = x
        · subst hyx
          rw [if_pos (List.mem_cons_self y V), if_neg hyV, ← hm]
          exact Nat.le_of_eq rfl
        · rw [if_neg (by simp [hyx, hyV] : y ∉ x :: V), if_neg hyV]
          have hle := wexp_le_succ (maxAdjLen g) (unvisitedCount g (x :: V))
          rw [hm] at hle
          exact hle
    · rw [if_neg hyk, if_neg hyk]
  · have hm := unvisitedCount_cons_not_mem g V x hxk
    unfold nodeWeight
    rw [hm]
    by_cases hyk : y ∈ bfsKeys g
    · have hyx : y ≠ x := fun he => hxk (he ▸ hyk)
      rw [if_pos hyk, if_pos hyk]
      by_cases hyV : y ∈ V
      · rw [if_pos hyV, if_pos (List.mem_cons_of_mem x hyV)]
      · rw [if_neg hyV, if_neg (by simp [hyx, hyV] : y ∉ x :: V)]
    · rw [if_neg hyk, if_neg hyk]

theorem map_sum_le_const (l : List String) (f : String → Nat) (c : Nat)
    (h : ∀ u ∈ l, f u ≤ c) : (l.map f).sum ≤ l.length * c := by
  induction l with
  | nil => simp
  | cons u t ih =>
    simp only [List.map_cons, List.sum_cons, List.length_cons]
    have h1 := h u (by simp)
    have h2 := ih (fun w hw => h w (by simp [hw]))
    have : (t.length + 1) * c = t.length * c + c := by ring
    omega

/-- The measure strictly decreases at every iteration of the BFS loop on a
non-empty queue. -/
theorem bfsMeasure_step_lt (g : Graph) (v : List String) (node : String)
    (rest : List String) :
    bfsMeasure g (bfsStep g (v, node :: rest)) < bfsMeasure g (v, node :: rest) := by
  have hRHS : bfsMeasure g (v, node :: rest)
      = nodeWeight g v node + (rest.map (nodeWeight g v)).sum := by
    unfold bfsMeasure
    simp [List.map_cons, List.sum_cons]
  by_cases hv : node ∈ v
  · have hstep : bfsStep g (v, node :: rest)
        = (v, rest ++ (adjOf g node).filter (fun u => decide (u ∉ v))) := by
      simp [bfsStep, hv]
    rw [hstep, hRHS]
    unfold bfsMeasure
    simp only [List.map_append, List.sum_append]
    by_cases hk : node ∈ bfsKeys g
    · have hb : ∀ u ∈ (adjOf g node).filter (fun u => decide (u ∉ v)),
          nodeWeight g v u ≤ wexp (maxAdjLen g) (unvisitedCount g v) := by
        intro u hu
        exact nodeWeight_le_wexp g v u (of_decide_eq_true (List.mem_filter.1 hu).2)
      have h1 := map_sum_le_const _ _ _ hb
      have h2 : ((adjOf g node).filter (fun u => decide (u ∉ v))).length ≤ maxAdjLen g :=
        Nat.le_trans (List.length_filter_le _ _) (adjOf_length_le g node)
      have h3 : (((adjOf g node).filter (fun u => decide (u ∉ v))).map
          (nodeWeight g v)).sum ≤ maxAdjLen g * wexp (maxAdjLen g) (unvisitedCount g v) :=
        Nat.le_trans h1 (Nat.mul_le_mul_right _ h2)
      have h4 : nodeWeight g v node
          = 1 + maxAdjLen g * wexp (maxAdjLen g) (unvisitedCount g v) := by
        unfold nodeWeight
        rw [if_pos hk, if_pos hv]
      omega
    · rw [adjOf_eq_nil_of_not_mem g node hk]
      have h4 : nodeWeight g v node = 1 := by
        unfold nodeWeight
        rw [if_neg hk]
      simp only [List.filter_nil, List.map_nil, List.sum_nil]
      omega
  · have hstep : bfsStep g (v, node :: rest)
        = (node :: v, rest ++ (adjOf g node).filter (fun u => decide (u ∉ node :: v))) := by
      simp [bfsStep, hv]
    rw [hstep, hRHS]
    unfold bfsMeasure
    simp only [List.map_append, List.sum_append]
    have hrest : (rest.map (nodeWeight g (node :: v))).sum
        ≤ (rest.map (nodeWeight g v)).sum :=
      List.sum_le_sum (fun y _ => nodeWeight_mono g v node hv y)
    by_cases hk : node ∈ bfsKeys g
    · have hm := unvisitedCount_cons_mem g v node hk hv
      have hb : ∀ u ∈ (adjOf g node).filter (fun u => decide (u ∉ node :: v)),
          nodeWeight g (node :: v) u
            ≤ wexp (maxAdjLen g) (unvisitedCount g (node :: v)) := by
        intro u hu
        exact nodeWeight_le_wexp g (node :: v) u
          (of_decide_eq_true (List.mem_filter.1 hu).2)
      have h1 := map_sum_le_const _ _ _ hb
      have h2 : ((adjOf g node).filter (fun u => decide (u ∉ node :: v))).length
          ≤ maxAdjLen g :=
        Nat.le_trans (List.length_filter_le _ _) (adjOf_length_le g node)
      have h3 : (((adjOf g node).filter (fun u => decide (u ∉ node :: v))).map
          (nodeWeight g (node :: v))).sum
          ≤ maxAdjLen g * wexp (maxAdjLen g) (unvisitedCount g (node :: v)) :=
        Nat.le_trans h1 (Nat.mul_le_mul_right _ h2)
      have h4 : nodeWeight g v node
          = 1 + maxAdjLen g * wexp (maxAdjLen g) (unvisitedCount g (node :: v)) := by
        unfold nodeWeight
        rw [if_pos hk, if_neg hv, ← hm]
        rfl
      omega
    · have hm := unvisitedCount_cons_not_mem g v node hk
      rw [adjOf_eq_nil_of_not_mem g node hk]
      have h4 : nodeWeight g v node = 1 := by
        unfold nodeWeight
        rw [if_neg hk]
      simp only [List.filter_nil, List.map_nil, List.sum_nil]
      omega

/-- Fuel equal to the measure always suffices: the BFS queue is empty after
`bfsMeasure` iterations, so the loop terminates. -/
theorem bfsRun_measure_done (g : Graph) :
    ∀ (n : Nat) (s : List String × List String),
      bfsMeasure g s ≤ n → (bfsRun g n s).2 = [] := by
  intro n
  induction n with
  | zero =>
    rintro ⟨v, q⟩ hm
    cases q with
    | nil => rfl
    | cons x r =>
      exfalso
      have h1 := nodeWeight_pos g v x
      have h2 : 1 ≤ bfsMeasure g (v, x :: r) := by
        unfold bfsMeasure
        simp only [List.map_cons, List.sum_cons]
        omega
      omega
  | succ n ih =>
    rintro ⟨v, q⟩ hm
    cases q with
    | nil =>
      show (bfsRun g n (bfsStep g (v, []))).2 = []
      have hstep : bfsStep g (v, []) = (v, []) := rfl
      rw [hstep]
      exact ih (v, []) (by unfold bfsMeasure; simp)
    | cons x r =>
      show (bfsRun g n (bfsStep g (v, x :: r))).2 = []
      have hlt := bfsMeasure_step_lt g v x r
      exact ih _ (by omega)

/-! ## Correctness of the BFS traversal -/

theorem bfsRun_invariant (g : Graph) (I : List String × List String → Prop)
    (hstep : ∀ s, I s → I (bfsStep g s)) :
    ∀ (n : Nat) (s : List String × List String), I s → I (bfsRun g n s) := by
  intro n
  induction n with
  | zero => intro s h; exact h
  | succ n ih => intro s h; exact ih _ (hstep s h)

theorem bfsStep_sound (g : Graph) (P : String → Prop)
    (hclosed : ∀ x, P x → ∀ u ∈ adjOf g x, P u) (s : List String × List String)
    (h : (∀ x ∈ s.1, P x) ∧ ∀ x ∈ s.2, P x) :
    (∀ x ∈ (bfsStep g s).1, P x) ∧ ∀ x ∈ (bfsStep g s).2, P x := by
  obtain ⟨v, q⟩ := s
  obtain ⟨hv, hq⟩ := h
  cases q with
  | nil => exact ⟨hv, by simp [bfsStep]⟩
  | cons node rest =>
    have hnode : P node := hq node (by simp)
    have hrest : ∀ x ∈ rest, P x := fun x hx => hq x (by simp [hx])
    by_cases hmem : node ∈ v
    · have hstep : bfsStep g (v, node :: rest)
          = (v, rest ++ (adjOf g node).filter (fun u => decide (u ∉ v))) := by
        simp [bfsStep, hmem]
      rw [hstep]
      refine ⟨hv, ?_⟩
      intro x hx
      rcases List.mem_append.1 hx with hx | hx
      · exact hrest x hx
      · exact hclosed node hnode x (List.mem_filter.1 hx).1
    · have hstep : bfsStep g (v, node :: rest)
          = (node :: v, rest ++ (adjOf g node).filter (fun u => decide (u ∉ node :: v))) := by
        simp [bfsStep, hmem]
      rw [hstep]
      constructor
      · intro x hx
        rcases List.mem_cons.1 hx with rfl | hx
        · exact hnode
        · exact hv x hx
      · intro x hx
        rcases List.mem_append.1 hx with hx | hx
        · exact hrest x hx
        · exact hclosed node hnode x (List.mem_filter.1 hx).1

theorem bfsStep_nodup (g : Graph) (s : List String × List String)
    (h : s.1.Nodup) : (bfsStep g s).1.Nodup := by
  obtain ⟨v, q⟩ := s
  cases q with
  | nil => exact h
  | cons node rest =>
    by_cases hmem : node ∈ v
    · have hstep : bfsStep g (v, node :: rest)
          = (v, rest ++ (adjOf g node).filter (fun u => decide (u ∉ v))) := by
        simp [bfsStep, hmem]
      rw [hstep]
      exact h
    · have hstep : bfsStep g (v, node :: rest)
          = (node :: v, rest ++ (adjOf g node).filter (fun u => decide (u ∉ node :: v))) := by
        simp [bfsStep, hmem]
      rw [hstep]
      exact List.nodup_cons.2 ⟨hmem, h⟩

theorem bfsStep_closed (g : Graph) (start : String) (s : List String × List String)
    (h : (∀ x ∈ s.1, ∀ u ∈ adjOf g x, u ∈ s.1 ∨ u ∈ s.2)
      ∧ (start ∈ s.1 ∨ start ∈ s.2)) :
    (∀ x ∈ (bfsStep g s).1, ∀ u ∈ adjOf g x, u ∈ (bfsStep g s).1 ∨ u ∈ (bfsStep g s).2)
      ∧ (start ∈ (bfsStep g s).1 ∨ start ∈ (bfsStep g s).2) := by
  obtain ⟨v, q⟩ := s
  obtain ⟨hcl, hst⟩ := h
  cases q with
  | nil => exact ⟨hcl, hst⟩
  | cons node rest =>
    by_cases hmem : node ∈ v
    · have hstep : bfsStep g (v, node :: rest)
          = (v, rest ++ (adjOf g node).filter (fun u => decide (u ∉ v))) := by
        simp [bfsStep, hmem]
      rw [hstep]
      constructor
      · intro x hx u hu
        rcases hcl x hx u hu with hv | hq
        · exact Or.inl hv
        · rcases List.mem_cons.1 hq with rfl | hq
          · exact Or.inl hmem
          · exact Or.inr (List.mem_append_left _ hq)
      · rcases hst with hv | hq
        · exact Or.inl hv
        · rcases List.mem_cons.1 hq with rfl | hq
          · exact Or.inl hmem
          · exact Or.inr (List.mem_append_left _ hq)
    · have hstep : bfsStep g (v, node :: rest)
          = (node :: v, rest ++ (adjOf g node).filter (fun u => decide (u ∉ node :: v))) := by
        simp [bfsStep, hmem]
      rw [hstep]
      constructor
      · intro x hx u hu
        rcases List.mem_cons.1 hx with rfl | hx
        · by_cases huv : u ∈ x :: v
          · exact Or.inl huv
          · refine Or.inr (List.mem_append_right _ ?_)
            exact List.mem_filter.2 ⟨hu, decide_eq_true huv⟩
        · rcases hcl x hx u hu with hv | hq
          · exact Or.inl (List.mem_cons_of_mem _ hv)
          · rcases List.mem_cons.1 hq with rfl | hq
            · exact Or.inl (List.mem_cons_self _ _)
            · exact Or.inr (List.mem_append_left _ hq)
      · rcases hst with hv | hq
        · exact Or.inl (List.mem_cons_of_mem _ hv)
        · rcases List.mem_cons.1 hq with rfl | hq
          · exact Or.inl (List.mem_cons_self _ _)
          · exact Or.inr (List.mem_append_left _ hq)

theorem bfsVisited_queue_empty (g : Graph) (start : String) :
    (bfsRun g (bfsMeasure g ([], [start])) ([], [start])).2 = [] :=
  bfsRun_measure_done g _ _ (Nat.le_refl _)

/-- The BFS visited set is exactly the set of nodes reachable from `start`
in the adjacency `g`. -/
theorem mem_bfsVisited_iff_reachG (g : Graph) (start : String) (x : String) :
    x ∈ bfsVisited g start ↔ ReachG g start x := by
  constructor
  · intro hx
    have hsound := bfsRun_invariant g
      (fun s => (∀ y ∈ s.1, ReachG g start y) ∧ ∀ y ∈ s.2, ReachG g start y)
      (bfsStep_sound g (ReachG g start) (fun y hy u hu => ReachG.step hy hu))
      (bfsMeasure g ([], [start])) ([], [start])
      ⟨by simp, by intro y hy; rcases List.mem_singleton.1 hy with rfl; exact ReachG.refl⟩
    exact hsound.1 x hx
  · intro hx
    have hclosed := bfsRun_invariant g
      (fun s => (∀ y ∈ s.1, ∀ u ∈ adjOf g y, u ∈ s.1 ∨ u ∈ s.2)
        ∧ (start ∈ s.1 ∨ start ∈ s.2))
      (bfsStep_closed g start)
      (bfsMeasure g ([], [start])) ([], [start])
      ⟨by simp, Or.inr (by simp)⟩
    have hempty := bfsVisited_queue_empty g start
    have hcl : ∀ y ∈ bfsVisited g start, ∀ u ∈ adjOf g y, u ∈ bfsVisited g start := by
      intro y hy u hu
      rcases hclosed.1 y hy u hu with h | h
      · exact h
      · rw [hempty] at h
        cases h
    have hstart : start ∈ bfsVisited g start := by
      rcases hclosed.2 with h | h
      · exact h
      · rw [hempty] at h
        cases h
    induction hx with
    | refl => exact hstart
    | step hru hadj ih => exact hcl _ ih _ hadj

theorem bfsVisited_nodup (g : Graph) (start : String) :
    (bfsVisited g start).Nodup :=
  bfsRun_invariant g (fun s => s.1.Nodup) (bfsStep_nodup g) _ ([], [start]) (by simp)

/-! ## The adjacency dicts built from the transitions -/

theorem addEdge_keys (g : Graph) (k v : String) :
    (addEdge g k v).map Prod.fst = g.map Prod.fst := by
  unfold addEdge
  rw [List.map_map]
  apply List.map_congr_left
  intro p _
  by_cases h : p.1 = k
  · simp [h]
  · simp [h]

theorem addEdge_of_not_mem (g : Graph) (k v : String) (hk : k ∉ g.map Prod.fst) :
    addEdge g k v = g := by
  unfold addEdge
  have h : ∀ p ∈ g, (if p.1 = k then (p.1, p.2 ++ [v]) else p) = p := by
    intro p hp
    rw [if_neg]
    intro he
    exact hk (he ▸ List.mem_map_of_mem Prod.fst hp)
  rw [List.map_congr_left h, List.map_id']

theorem adjOf_addEdge_ne (g : Graph) (k v s : String) (h : s ≠ k) :
    adjOf (addEdge g k v) s = adjOf g s := by
  induction g with
  | nil => rfl
  | cons p g ih =>
    cases p with
    | mk key val =>
      show adjOf ((if key = k then (key, val ++ [v]) else (key, val)) :: addEdge g k v) s = _
      by_cases hkey : key = k
      · rw [if_pos hkey]
        have hs : (s == key) = false := beq_eq_false_iff_ne.2 (fun he => h (he.trans hkey))
        show ((List.lookup s ((key, val ++ [v]) :: addEdge g k v)).getD [])
          = ((List.lookup s ((key, val) :: g)).getD [])
        simp only [List.lookup, hs]
        exact ih
      · rw [if_neg hkey]
        show ((List.lookup s ((key, val) :: addEdge g k v)).getD [])
          = ((List.lookup s ((key, val) :: g)).getD [])
        simp only [List.lookup]
        cases hs : (s == key) with
        | true => rfl
        | false => exact ih

theorem adjOf_addEdge_self (g : Graph) (k v : String) (hk : k ∈ g.map Prod.fst) :
    adjOf (addEdge g k v) k = adjOf g k ++ [v] := by
  induction g with
  | nil => cases hk
  | cons p g ih =>
    cases p with
    | mk key val =>
      show adjOf ((if key = k then (key, val ++ [v]) else (key, val)) :: addEdge g k v) k = _
      by_cases hkey : key = k
      · rw [if_pos hkey]
        have hs : (k == key) = true := by simp [hkey]
        show ((List.lookup k ((key, val ++ [v]) :: addEdge g k v)).getD [])
          = ((List.lookup k ((key, val) :: g)).getD [])  ++ [v]
        simp only [List.lookup, hs]
        rfl
      · rw [if_neg hkey]
        have hs : (k == key) = false := beq_eq_false_iff_ne.2 (fun he => hkey he.symm)
        show ((List.lookup k ((key, val) :: addEdge g k v)).getD [])
          = ((List.lookup k ((key, val) :: g)).getD []) ++ [v]
        simp only [List.lookup, hs]
        apply ih
        rcases List.mem_cons.1 hk with he | hm
        · exact absurd he.symm hkey
        · exact hm

theorem mem_adjOf_addEdge (g : Graph) (k v s u : String)
    (hu : u ∈ adjOf (addEdge g k v) s) : u ∈ adjOf g s ∨ (s = k ∧ u = v) := by
  by_cases hsk : s = k
  · subst hsk
    by_cases hk : s ∈ g.map Prod.fst
    · rw [adjOf_addEdge_self g s v hk] at hu
      rcases List.mem_append.1 hu with h | h
      · exact Or.inl h
      · exact Or.inr ⟨rfl, List.mem_singleton.1 h⟩
    · rw [addEdge_of_not_mem g s v hk] at hu
      exact Or.inl hu
  · rw [adjOf_addEdge_ne g k v s hsk] at hu
    exact Or.inl hu

theorem mem_adjOf_addEdge_of_mem (g : Graph) (k v s u : String)
    (hu : u ∈ adjOf g s) : u ∈ adjOf (addEdge g k v) s := by
  by_cases hsk : s = k
  · subst hsk
    by_cases hk : s ∈ g.map Prod.fst
    · rw [adjOf_addEdge_self g s v hk]
      exact List.mem_append_left _ hu
    · rw [addEdge_of_not_mem g s v hk]
      exact hu
  · rw [adjOf_addEdge_ne g k v s hsk]
    exact hu

theorem mem_adjOf_addEdge_self (g : Graph) (k v : String) (hk : k ∈ g.map Prod.fst) :
    v ∈ adjOf (addEdge g k v) k := by
  rw [adjOf_addEdge_self g k v hk]
  exact List.mem_append_right _ (by simp)

theorem adjOf_initGraph (states : List String) (s : String) :
    adjOf (initGraph states) s = [] := by
  induction states with
  | nil => rfl
  | cons y t ih =>
    show ((List.lookup s ((y, []) :: initGraph t)).getD []) = []
    simp only [List.lookup]
    cases hs : (s == y) with
    | true => rfl
    | false => exact ih

theorem initGraph_keys (states : List String) :
    (initGraph states).map Prod.fst = states := by
  unfold initGraph
  rw [List.map_map]
  exact List.map_id' states

theorem undirected_foldl_keys :
    ∀ (ts : List Transition) (g0 : Graph),
      ((ts.foldl (fun g t => addEdge (addEdge g t.src t.dst) t.dst t.src) g0).map
        Prod.fst) = g0.map Prod.fst := by
  intro ts
  induction ts with
  | nil => intro g0; rfl
  | cons t rest ih =>
    intro g0
    rw [List.foldl_cons, ih, addEdge_keys, addEdge_keys]

theorem directed_foldl_keys :
    ∀ (ts : List Transition) (g0 : Graph),
      ((ts.foldl (fun g t => addEdge g t.src t.dst) g0).map Prod.fst)
        = g0.map Prod.fst := by
  intro ts
  induction ts with
  | nil => intro g0; rfl
  | cons t rest ih =>
    intro g0
    rw [List.foldl_cons, ih, addEdge_keys]

theorem undirected_graph_keys (fsa : FSA) :
    (undirected_graph fsa).map Prod.fst = fsa.states := by
  unfold undirected_graph
  rw [undirected_foldl_keys, initGraph_keys]

theorem directed_graph_keys (fsa : FSA) :
    (directed_graph fsa).map Prod.fst = fsa.states := by
  unfold directed_graph
  rw [directed_foldl_keys, initGraph_keys]

theorem mem_adjOf_undirected_foldl :
    ∀ (ts : List Transition) (g0 : Graph) (s u : String),
      u ∈ adjOf (ts.foldl (fun g t => addEdge (addEdge g t.src t.dst) t.dst t.src) g0) s →
        u ∈ adjOf g0 s ∨
          ∃ t ∈ ts, (t.src = s ∧ t.dst = u) ∨ (t.dst = s ∧ t.src = u) := by
  intro ts
  induction ts with
  | nil => intro g0 s u hu; exact Or.inl hu
  | cons t rest ih =>
    intro g0 s u hu
    rw [List.foldl_cons] at hu
    rcases ih _ s u hu with h1 | ⟨t', ht', hc⟩
    · rcases mem_adjOf_addEdge _ _ _ _ _ h1 with h2 | ⟨hs, hv⟩
      · rcases mem_adjOf_addEdge _ _ _ _ _ h2 with h3 | ⟨hs, hv⟩
        · exact Or.inl h3
        · exact Or.inr ⟨t, by simp, Or.inl ⟨hs.symm, hv.symm⟩⟩
      · exact Or.inr ⟨t, by simp, Or.inr ⟨hs.symm, hv.symm⟩⟩
    · exact Or.inr ⟨t', by simp [ht'], hc⟩

theorem mem_adjOf_directed_foldl :
    ∀ (ts : List Transition) (g0 : Graph) (s u : String),
      u ∈ adjOf (ts.foldl (fun g t => addEdge g t.src t.dst) g0) s →
        u ∈ adjOf g0 s ∨ ∃ t ∈ ts, t.src = s ∧ t.dst = u := by
  intro ts
  induction ts with
  | nil => intro g0 s u hu; exact Or.inl hu
  | cons t rest ih =>
    intro g0 s u hu
    rw [List.foldl_cons] at hu
    rcases ih _ s u hu with h1 | ⟨t', ht', hc⟩
    · rcases mem_adjOf_addEdge _ _ _ _ _ h1 with h2 | ⟨hs, hv⟩
      · exact Or.inl h2
      · exact Or.inr ⟨t, by simp, hs.symm, hv.symm⟩
    · exact Or.inr ⟨t', by simp [ht'], hc⟩

theorem mem_adjOf_foldl_mono_u :
    ∀ (ts : List Transition) (g0 : Graph) (s u : String), u ∈ adjOf g0 s →
      u ∈ adjOf (ts.foldl (fun g t => addEdge (addEdge g t.src t.dst) t.dst t.src) g0) s := by
  intro ts
  induction ts with
  | nil => intro g0 s u hu; exact hu
  | cons t rest ih =>
    intro g0 s u hu
    rw [List.foldl_cons]
    exact ih _ s u (mem_adjOf_addEdge_of_mem _ _ _ _ _ (mem_adjOf_addEdge_of_mem _ _ _ _ _ hu))

theorem mem_adjOf_foldl_mono_d :
    ∀ (ts : List Transition) (g0 : Graph) (s u : String), u ∈ adjOf g0 s →
      u ∈ adjOf (ts.foldl (fun g t => addEdge g t.src t.dst) g0) s := by
  intro ts
  induction ts with
  | nil => intro g0 s u hu; exact hu
  | cons t rest ih =>
    intro g0 s u hu
    rw [List.foldl_cons]
    exact ih _ s u (mem_adjOf_addEdge_of_mem _ _ _ _ _ hu)

theorem mem_adjOf_undirected_foldl_of_trans :
    ∀ (ts : List Transition) (g0 : Graph),
      (∀ t' ∈ ts, t'.src ∈ g0.map Prod.fst ∧ t'.dst ∈ g0.map Prod.fst) →
      ∀ t ∈ ts, ∀ s u : String,
        ((t.src = s ∧ t.dst = u) ∨ (t.dst = s ∧ t.src = u)) →
        u ∈ adjOf (ts.foldl (fun g t => addEdge (addEdge g t.src t.dst) t.dst t.src) g0) s := by
  intro ts
  induction ts with
  | nil => intro g0 _ t ht; cases ht
  | cons t0 rest ih =>
    intro g0 hend t ht s u hc
    rw [List.foldl_cons]
    rcases List.mem_cons.1 ht with rfl | htr
    · apply mem_adjOf_foldl_mono_u
      rcases hc with ⟨hs, hu⟩ | ⟨hs, hu⟩
      · subst hs; subst hu
        apply mem_adjOf_addEdge_of_mem
        exact mem_adjOf_addEdge_self _ _ _ (hend t (by simp)).1
      · subst hs; subst hu
        apply mem_adjOf_addEdge_self
        rw [addEdge_keys]
        exact (hend t (by simp)).2
    · apply ih _ _ t htr s u hc
      intro t' ht'
      rw [addEdge_keys, addEdge_keys]
      exact hend t' (by simp [ht'])

theorem mem_adjOf_directed_foldl_of_trans :
    ∀ (ts : List Transition) (g0 : Graph),
      (∀ t' ∈ ts, t'.src ∈ g0.map Prod.fst) →
      ∀ t ∈ ts, t.dst ∈ adjOf (ts.foldl (fun g t => addEdge g t.src t.dst) g0) t.src := by
  intro ts
  induction ts with
  | nil => intro g0 _ t ht; cases ht
  | cons t0 rest ih =>
    intro g0 hend t ht
    rw [List.foldl_cons]
    rcases List.mem_cons.1 ht with rfl | htr
    · apply mem_adjOf_foldl_mono_d
      exact mem_adjOf_addEdge_self _ _ _ (hend t (by simp))
    · apply ih _ _ t htr
      intro t' ht'
      rw [addEdge_keys]
      exact hend t' (by simp [ht'])

/-- Reachability in the undirected adjacency dict coincides with
undirected reachability over the transitions, provided every transition
endpoint is a dict key (a state). -/
theorem reachG_undirected_iff (fsa : FSA) (q0 : String)
    (hend : ∀ t ∈ fsa.transitions, t.src ∈ fsa.states ∧ t.dst ∈ fsa.states)
    (x : String) :
    ReachG (undirected_graph fsa) q0 x ↔ ReachUndirected fsa q0 x := by
  constructor
  · intro h
    induction h with
    | refl => exact ReachUndirected.refl
    | step hr hadj ih =>
      unfold undirected_graph at hadj
      rcases mem_adjOf_undirected_foldl fsa.transitions (initGraph fsa.states) _ _ hadj
        with h1 | ⟨t, ht, hc⟩
      · rw [adjOf_initGraph] at h1
        cases h1
      · exact ReachUndirected.step t ih ht hc
  · intro h
    induction h with
    | refl => exact ReachG.refl
    | step t hr ht hc ih =>
      refine ReachG.step ih ?_
      show _ ∈ adjOf (undirected_graph fsa) _
      unfold undirected_graph
      apply mem_adjOf_undirected_foldl_of_trans fsa.transitions (initGraph fsa.states)
        ?_ t ht _ _ hc
      intro t' ht'
      rw [initGraph_keys]
      exact hend t' ht'

/-- Reachability in the directed adjacency dict coincides with directed
reachability over the transitions, provided every transition source is a
dict key (a state). -/
theorem reachG_directed_iff (fsa : FSA) (q0 : String)
    (hend : ∀ t ∈ fsa.transitions, t.src ∈ fsa.states) (x : String) :
    ReachG (directed_graph fsa) q0 x ↔ ReachDirected fsa q0 x := by
  constructor
  · intro h
    induction h with
    | refl => exact ReachDirected.refl
    | step hr hadj ih =>
      unfold directed_graph at hadj
      rcases mem_adjOf_directed_foldl fsa.transitions (initGraph fsa.states) _ _ hadj
        with h1 | ⟨t, ht, hsrc, hdst⟩
      · rw [adjOf_initGraph] at h1
        cases h1
      · exact ReachDirected.step t ih ht hsrc hdst
  · intro h
    induction h with
    | refl => exact ReachG.refl
    | step t hr ht hsrc hdst ih =>
      refine ReachG.step ih ?_
      show _ ∈ adjOf (directed_graph fsa) _
      unfold directed_graph
      rw [← hsrc, ← hdst]
      apply mem_adjOf_directed_foldl_of_trans fsa.transitions (initGraph fsa.states)
        ?_ t ht
      intro t' ht'
      rw [initGraph_keys]
      exact (hend t' ht')

theorem bfsVisited_subset (g : Graph) (start : String) (P : String → Prop)
    (hstart : P start) (hclosed : ∀ x, P x → ∀ u ∈ adjOf g x, P u) :
    ∀ x ∈ bfsVisited g start, P x := fun x hx =>
  (bfsRun_invariant g (fun s => (∀ y ∈ s.1, P y) ∧ ∀ y ∈ s.2, P y)
    (bfsStep_sound g P hclosed) _ ([], [start])
    ⟨by simp, by
      intro y hy
      rcases List.mem_singleton.1 hy with rfl
      exact hstart⟩).1 x hx

theorem bfsRun_eq_iterate (g : Graph) :
    ∀ (n : Nat) (s : List String × List String), bfsRun g n s = (bfsStep g)^[n] s := by
  intro n
  induction n with
  | zero => intro s; rfl
  | succ n ih =>
    intro s
    rw [Function.iterate_succ_apply]
    exact ih (bfsStep g s)

/-- C10: the BFS loop of `is_disjoint` (undirected adjacency) and of
`are_all_states_reachable` (directed adjacency) empties its queue after
finitely many iterations — despite nodes being enqueued repeatedly before
they are marked visited — and the visited set it returns is exactly the set
of states reachable from the initial state in the respective graph. -/
theorem bfs_terminates_and_computes_reachable (fsa : FSA) (q0 : String)
    (hinit : fsa.initialState = some q0) (hq0 : q0 ∈ fsa.states)
    (hend : ∀ t ∈ fsa.transitions, t.src ∈ fsa.states ∧ t.dst ∈ fsa.states) :
    ((∃ n : Nat, (bfsStep (undirected_graph fsa))^[n] ([], [q0])
        = (bfsVisited (undirected_graph fsa) q0, []))
      ∧ ∀ x, x ∈ bfsVisited (undirected_graph fsa) q0 ↔ ReachUndirected fsa q0 x)
    ∧ ((∃ n : Nat, (bfsStep (directed_graph fsa))^[n] ([], [q0])
        = (bfsVisited (directed_graph fsa) q0, []))
      ∧ ∀ x, x ∈ bfsVisited (directed_graph fsa) q0 ↔ ReachDirected fsa q0 x) := by
  constructor
  · constructor
    · refine ⟨bfsMeasure (undirected_graph fsa) ([], [q0]), ?_⟩
      rw [← bfsRun_eq_iterate]
      have h2 := bfsVisited_queue_empty (undirected_graph fsa) q0
      exact Prod.ext rfl h2
    · intro x
      rw [mem_bfsVisited_iff_reachG]
      exact reachG_undirected_iff fsa q0 hend x
  · constructor
    · refine ⟨bfsMeasure (directed_graph fsa) ([], [q0]), ?_⟩
      rw [← bfsRun_eq_iterate]
      have h2 := bfsVisited_queue_empty (directed_graph fsa) q0
      exact Prod.ext rfl h2
    · intro x
      rw [mem_bfsVisited_iff_reachG]
      exact reachG_directed_iff fsa q0 (fun t ht => (hend t ht).1) x

/-- Witness for `bfs_terminates_and_computes_reachable` at the
shifted-initial automaton. -/
theorem bfs_terminates_and_computes_reachable_witness :
    (fsaShiftedInit.initialState = some "s2" ∧ "s2" ∈ fsaShiftedInit.states ∧
      ∀ t ∈ fsaShiftedInit.transitions,
        t.src ∈ fsaShiftedInit.states ∧ t.dst ∈ fsaShiftedInit.states)
    ∧ (((∃ n : Nat, (bfsStep (undirected_graph fsaShiftedInit))^[n] ([], ["s2"])
          = (bfsVisited (undirected_graph fsaShiftedInit) "s2", []))
        ∧ ∀ x, x ∈ bfsVisited (undirected_graph fsaShiftedInit) "s2"
            ↔ ReachUndirected fsaShiftedInit "s2" x)
      ∧ ((∃ n : Nat, (bfsStep (directed_graph fsaShiftedInit))^[n] ([], ["s2"])
          = (bfsVisited (directed_graph fsaShiftedInit) "s2", []))
        ∧ ∀ x, x ∈ bfsVisited (directed_graph fsaShiftedInit) "s2"
            ↔ ReachDirected fsaShiftedInit "s2" x)) :=
  ⟨⟨by decide, by decide, by decide⟩,
    bfs_terminates_and_computes_reachable fsaShiftedInit "s2" (by decide) (by decide)
      (by decide)⟩

/-! ## The validator matches the specified rule order -/

theorem transError_eq_spec (alphabet states : List String) :
    ∀ ts : List Transition,
      transError alphabet states ts =
        match ts.find? (fun t => decide (t.sym ∉ alphabet) || decide (t.src ∉ states)
            || decide (t.dst ∉ states)) with
        | some t => some (if t.sym ∉ alphabet then e3msg t.sym
            else if t.src ∉ states then e1msg t.src else e1msg t.dst)
        | none => none := by
  intro ts
  induction ts with
  | nil => rfl
  | cons t rest ih =>
    simp only [List.find?_cons]
    by_cases h1 : t.sym ∉ alphabet
    · rw [show (decide (t.sym ∉ alphabet) || decide (t.src ∉ states)
          || decide (t.dst ∉ states)) = true by rw [decide_eq_true h1]; simp]
      show (if t.sym ∉ alphabet then some (e3msg t.sym)
          else if t.src ∉ states then some (e1msg t.src)
          else if t.dst ∉ states then some (e1msg t.dst)
          else transError alphabet states rest)
        = some (if t.sym ∉ alphabet then e3msg t.sym
            else if t.src ∉ states then e1msg t.src else e1msg t.dst)
      rw [if_pos h1, if_pos h1]
    · by_cases h2 : t.src ∉ states
      · rw [show (decide (t.sym ∉ alphabet) || decide (t.src ∉ states)
            || decide (t.dst ∉ states)) = true by rw [decide_eq_true h2]; simp]
        show (if t.sym ∉ alphabet then some (e3msg t.sym)
            else if t.src ∉ states then some (e1msg t.src)
            else if t.dst ∉ states then some (e1msg t.dst)
            else transError alphabet states rest)
          = some (if t.sym ∉ alphabet then e3msg t.sym
              else if t.src ∉ states then e1msg t.src else e1msg t.dst)
        rw [if_neg h1, if_neg h1, if_pos h2, if_pos h2]
      · by_cases h3 : t.dst ∉ states
        · rw [show (decide (t.sym ∉ alphabet) || decide (t.src ∉ states)
              || decide (t.dst ∉ states)) = true by rw [decide_eq_true h3]; simp]
          show (if t.sym ∉ alphabet then some (e3msg t.sym)
              else if t.src ∉ states then some (e1msg t.src)
              else if t.dst ∉ states then some (e1msg t.dst)
              else transError alphabet states rest)
            = some (if t.sym ∉ alphabet then e3msg t.sym
                else if t.src ∉ states then e1msg t.src else e1msg t.dst)
          rw [if_neg h1, if_neg h1, if_neg h2, if_neg h2, if_pos h3]
        · rw [show (decide (t.sym ∉ alphabet) || decide (t.src ∉ states)
              || decide (t.dst ∉ states)) = false by
            rw [decide_eq_false h1, decide_eq_false h2, decide_eq_false h3]; rfl]
          show (if t.sym ∉ alphabet then some (e3msg t.sym)
              else if t.src ∉ states then some (e1msg t.src)
              else if t.dst ∉ states then some (e1msg t.dst)
              else transError alphabet states rest) = _
          rw [if_neg h1, if_neg h2, if_neg h3]
          exact ih

theorem finalError_eq_spec (states : List String) :
    ∀ l : List String,
      finalError states l =
        match l.find? (fun s => decide (s ∉ states)) with
        | some s => some (e1msg s)
        | none => none := by
  intro l
  induction l with
  | nil => rfl
  | cons s rest ih =>
    simp only [List.find?_cons]
    by_cases h1 : s ∉ states
    · rw [decide_eq_true h1]
      show (if s ∉ states then some (e1msg s) else finalError states rest)
        = some (e1msg s)
      rw [if_pos h1]
    · rw [decide_eq_false h1]
      show (if s ∉ states then some (e1msg s) else finalError states rest) = _
      rw [if_neg h1]
      exact ih

theorem nodup_subset_length_eq_iff (a b : List String) (ha : a.Nodup) (hb : b.Nodup)
    (hab : ∀ x ∈ a, x ∈ b) : a.length = b.length ↔ ∀ x ∈ b, x ∈ a := by
  have hca : a.toFinset.card = a.length := List.toFinset_card_of_nodup ha
  have hcb : b.toFinset.card = b.length := List.toFinset_card_of_nodup hb
  have h1 : a.toFinset ⊆ b.toFinset := by
    intro y hy
    rw [List.mem_toFinset] at hy ⊢
    exact hab y hy
  constructor
  · intro hlen x hx
    have heq : a.toFinset = b.toFinset :=
      Finset.eq_of_subset_of_card_le h1 (by omega)
    rw [← List.mem_toFinset, ← heq, List.mem_toFinset] at hx
    exact hx
  · intro hba
    have h2 : b.toFinset ⊆ a.toFinset := by
      intro y hy
      rw [List.mem_toFinset] at hy ⊢
      exact hba y hy
    have heq : a.toFinset = b.toFinset := Finset.Subset.antisymm h1 h2
    rw [heq] at hca
    omega

theorem adjOf_undirected_subset_states (fsa : FSA)
    (hend : ∀ t ∈ fsa.transitions, t.src ∈ fsa.states ∧ t.dst ∈ fsa.states) :
    ∀ x u, u ∈ adjOf (undirected_graph fsa) x → u ∈ fsa.states := by
  intro x u hu
  unfold undirected_graph at hu
  rcases mem_adjOf_undirected_foldl fsa.transitions (initGraph fsa.states) _ _ hu
    with h1 | ⟨t, ht, hc⟩
  · rw [adjOf_initGraph] at h1
    cases h1
  · rcases hc with ⟨_, hu'⟩ | ⟨_, hu'⟩
    · exact hu' ▸ (hend t ht).2
    · exact hu' ▸ (hend t ht).1

/-- Under the conditions holding when the E2 check runs (initial in the
state list, all endpoints in the state list, unique states), the visited
count comparison of `is_disjoint` is exactly the complement of the
all-states-reachable test. -/
theorem is_disjoint_eq_not_reachesAll (fsa : FSA) (q0 : String)
    (hinit : fsa.initialState = some q0) (hq0 : q0 ∈ fsa.states)
    (hend : ∀ t ∈ fsa.transitions, t.src ∈ fsa.states ∧ t.dst ∈ fsa.states)
    (hN : fsa.states.Nodup) :
    is_disjoint fsa = !(reachesAllStates fsa) := by
  have hgd : fsa.initialState.getD "" = q0 := by rw [hinit]; rfl
  have hsub : ∀ x ∈ bfsVisited (undirected_graph fsa) q0, x ∈ fsa.states :=
    bfsVisited_subset _ q0 (· ∈ fsa.states) hq0
      (fun x _ u hu => adjOf_undirected_subset_states fsa hend x u hu)
  have hnd := bfsVisited_nodup (undirected_graph fsa) q0
  have hlen := nodup_subset_length_eq_iff _ _ hnd hN hsub
  simp only [is_disjoint, reachesAllStates]
  rw [hgd]
  cases hall : fsa.states.all
      (fun s => decide (s ∈ bfsVisited (undirected_graph fsa) q0)) with
  | true =>
    have h2 : ∀ s ∈ fsa.states, s ∈ bfsVisited (undirected_graph fsa) q0 := by
      intro s hs
      exact of_decide_eq_true (List.all_eq_true.1 hall s hs)
    have h3 := hlen.2 h2
    rw [decide_eq_false (not_not_intro h3)]
    rfl
  | false =>
    have h2 : ¬ ∀ s ∈ fsa.states, s ∈ bfsVisited (undirected_graph fsa) q0 := by
      intro hforall
      have hco : fsa.states.all
          (fun s => decide (s ∈ bfsVisited (undirected_graph fsa) q0)) = true :=
        List.all_eq_true.2 (fun s hs => decide_eq_true (hforall s hs))
      rw [hall] at hco
      cases hco
    have h3 : (bfsVisited (undirected_graph fsa) q0).length ≠ fsa.states.length :=
      fun he => h2 (hlen.1 he)
    rw [decide_eq_true h3]
    rfl

/-- C3: `find_error` implements exactly the specified prioritized
first-match rule list (E4; E1 for the initial state; per transition,
in list order, E3 before the endpoint E1 checks; E1 for final states; E2),
stopping at the first failure, and its E2 test holds exactly when the
undirected graph rooted at the initial state misses some state. -/
theorem find_error_matches_spec (fsa : FSA) (hN : fsa.states.Nodup) :
    find_error fsa = findErrorSpec fsa
    ∧ (∀ q0, fsa.initialState = some q0 → q0 ∈ fsa.states →
        (∀ t ∈ fsa.transitions, t.src ∈ fsa.states ∧ t.dst ∈ fsa.states) →
        (reachesAllStates fsa = true ↔ ∀ s ∈ fsa.states, ReachUndirected fsa q0 s)) := by
  constructor
  · cases hi : fsa.initialState with
    | none =>
      have hL : find_error fsa = some e4msg := by unfold find_error; rw [hi]
      have hR : findErrorSpec fsa = some e4msg := by unfold findErrorSpec; rw [hi]
      rw [hL, hR]
    | some init =>
      have hL : find_error fsa = (if init ∉ fsa.states then some (e1msg init)
          else match transError fsa.alphabet fsa.states fsa.transitions with
            | some e => some e
            | none =>
              match finalError fsa.states fsa.finalStates with
              | some e => some e
              | none => if is_disjoint fsa then some e2msg else none) := by
        unfold find_error
        rw [hi]
      have hR : findErrorSpec fsa = (if init ∉ fsa.states then some (e1msg init)
          else match fsa.transitions.find? (fun t => decide (t.sym ∉ fsa.alphabet)
              || decide (t.src ∉ fsa.states) || decide (t.dst ∉ fsa.states)) with
            | some t =>
              if t.sym ∉ fsa.alphabet then some (e3msg t.sym)
              else if t.src ∉ fsa.states then some (e1msg t.src)
              else some (e1msg t.dst)
            | none =>
              match fsa.finalStates.find? (fun s => decide (s ∉ fsa.states)) with
              | some s => some (e1msg s)
              | none => if reachesAllStates fsa then none else some e2msg) := by
        unfold findErrorSpec
        rw [hi]
      rw [hL, hR]
      by_cases h0 : init ∉ fsa.states
      · rw [if_pos h0, if_pos h0]
      · rw [if_neg h0, if_neg h0]
        rw [transError_eq_spec]
        cases hfind : fsa.transitions.find? (fun t => decide (t.sym ∉ fsa.alphabet)
            || decide (t.src ∉ fsa.states) || decide (t.dst ∉ fsa.states)) with
        | some t =>
          show some (if t.sym ∉ fsa.alphabet then e3msg t.sym
              else if t.src ∉ fsa.states then e1msg t.src else e1msg t.dst)
            = (if t.sym ∉ fsa.alphabet then some (e3msg t.sym)
              else if t.src ∉ fsa.states then some (e1msg t.src)
              else some (e1msg t.dst))
          by_cases hc1 : t.sym ∉ fsa.alphabet
          · rw [if_pos hc1, if_pos hc1]
          · rw [if_neg hc1, if_neg hc1]
            by_cases hc2 : t.src ∉ fsa.states
            · rw [if_pos hc2, if_pos hc2]
            · rw [if_neg hc2, if_neg hc2]
        | none =>
          show (match finalError fsa.states fsa.finalStates with
              | some e => some e
              | none => if is_disjoint fsa then some e2msg else none)
            = (match fsa.finalStates.find? (fun s => decide (s ∉ fsa.states)) with
              | some s => some (e1msg s)
              | none => if reachesAllStates fsa then none else some e2msg)
          rw [finalError_eq_spec]
          cases hfind2 : fsa.finalStates.find? (fun s => decide (s ∉ fsa.states)) with
          | some s => rfl
          | none =>
            show (if is_disjoint fsa then some e2msg else none)
              = (if reachesAllStates fsa then none else some e2msg)
            have hq0 : init ∈ fsa.states := of_not_not h0
            have hend : ∀ t ∈ fsa.transitions,
                t.src ∈ fsa.states ∧ t.dst ∈ fsa.states := by
              intro t ht
              have hp := List.find?_eq_none.1 hfind t ht
              rw [Bool.not_eq_true] at hp
              simp only [Bool.or_eq_false_iff, decide_eq_false_iff_not, not_not] at hp
              exact ⟨hp.1.2, hp.2⟩
            rw [is_disjoint_eq_not_reachesAll fsa init hi hq0 hend hN]
            cases hb : reachesAllStates fsa with
            | true => rfl
            | false => rfl
  · intro q0 hinit hq0 hend
    have hgd : fsa.initialState.getD "" = q0 := by rw [hinit]; rfl
    unfold reachesAllStates
    rw [hgd, List.all_eq_true]
    constructor
    · intro h s hs
      have := of_decide_eq_true (h s hs)
      exact (reachG_undirected_iff fsa q0 hend s).1
        ((mem_bfsVisited_iff_reachG _ _ _).1 this)
    · intro h s hs
      apply decide_eq_true
      exact (mem_bfsVisited_iff_reachG _ _ _).2
        ((reachG_undirected_iff fsa q0 hend s).2 (h s hs))

/-- Witness for `find_error_matches_spec` at the shifted-initial
automaton. -/
theorem find_error_matches_spec_witness :
    fsaShiftedInit.states.Nodup ∧
      (find_error fsaShiftedInit = findErrorSpec fsaShiftedInit
      ∧ (∀ q0, fsaShiftedInit.initialState = some q0 → q0 ∈ fsaShiftedInit.states →
          (∀ t ∈ fsaShiftedInit.transitions,
            t.src ∈ fsaShiftedInit.states ∧ t.dst ∈ fsaShiftedInit.states) →
          (reachesAllStates fsaShiftedInit = true ↔
            ∀ s ∈ fsaShiftedInit.states, ReachUndirected fsaShiftedInit q0 s))) :=
  ⟨by decide, find_error_matches_spec fsaShiftedInit (by decide)⟩
